import Mathlib

/-!
Verification of the FRANZ turn pipeline against its specification.

This file gives a shallow embedding, in Lean, of the parts of the
repository that the frozen claims are about: the tool layer of
`tools.py` (argument validation, canonicalization, the audit trail and
the note store), the invocation extractor of `execute.py`, and the
capture pipeline of `capture.py` (action parsing, cursor state, canvas
loading, mark rasterization and the PNG encoder).  Python machine
values are modelled as `Int`/`Nat`/`ℚ`; fallible operations return
`Except` or `Option`; the module-level mutable state of `tools.py` is
threaded explicitly as a `ToolState` value.
-/

namespace Franz

/-- Truncation toward zero: the behaviour of Python's `int()` applied to a
real (non-NaN, finite) numeric value.  On the reduced fraction `num/den`
this is the T-division of the numerator by the denominator. -/
def pyTrunc (q : ℚ) : ℤ := q.num.tdiv q.den

/-- Equality of `Except` results is decidable when both components are. -/
instance {ε α : Type} [DecidableEq ε] [DecidableEq α] : DecidableEq (Except ε α) :=
  fun a b =>
    match a, b with
    | .ok x, .ok y =>
      if h : x = y then isTrue (h ▸ rfl) else isFalse (fun hc => h (Except.ok.inj hc))
    | .error e, .error f =>
      if h : e = f then isTrue (h ▸ rfl) else isFalse (fun hc => h (Except.error.inj hc))
    | .ok _, .error _ => isFalse (fun hc => nomatch hc)
    | .error _, .ok _ => isFalse (fun hc => nomatch hc)

/-- Model of the Python values that can reach the tool layer as arguments.
Floats are modelled by the rationals they denote (every finite IEEE double
is a rational; NaN and infinities are outside the model). -/
inductive PyVal where
  | int (n : ℤ)
  | float (q : ℚ)
  | str (s : String)
  | none
deriving DecidableEq, Repr

/-- The two exception kinds raised by coordinate/text validation in
`tools.py`: `TypeError` and `ValueError`. -/
inductive PyErr where
  | typeError
  | valueError
deriving DecidableEq, Repr

/-- Python `isinstance(v, int | float)`. -/
def PyVal.isNumber : PyVal → Bool
  | .int _ => true
  | .float _ => true
  | _ => false

/-- The numeric value of a number, as a rational (0 on non-numbers; only
used under `isNumber`). -/
def PyVal.numVal : PyVal → ℚ
  | .int n => (n : ℚ)
  | .float q => q
  | _ => 0

/-- Python `int(v)` of a numeric value: truncation toward zero. -/
def PyVal.truncVal (v : PyVal) : ℤ := pyTrunc v.numVal

/-- Shallow embedding of `tools._validate_coord`: non-numbers raise a
`TypeError`; otherwise the value is truncated with `int()` and the
truncation is required to lie in `[0, 1000]`, a `ValueError` otherwise. -/
def validate_coord (v : PyVal) : Except PyErr ℤ :=
  if v.isNumber then
    let iv := v.truncVal
    if 0 ≤ iv ∧ iv ≤ 1000 then .ok iv else .error .valueError
  else .error .typeError

/-- An OS-level input event injected by the physical execution path of
`tools.py` (`_phys_click` and friends, `_send_unicode`). -/
inductive OsEvent where
  | click (x y : ℤ)
  | rightClick (x y : ℤ)
  | doubleClick (x y : ℤ)
  | drag (x1 y1 x2 y2 : ℤ)
  | typeText (s : String)
deriving DecidableEq, Repr

/-- The module-level mutable state of `tools.py` (`_execute`, `_physical`,
`_executed`, `_ignored`), together with the persisted `memory.json` note
store and a trace of the OS input events injected so far. -/
structure ToolState where
  execute : Bool
  physical : Bool
  executed : List String
  ignored : List String
  memory : List String
  os : List OsEvent
deriving DecidableEq, Repr

/-- Shallow embedding of `tools._record`: with execution disabled the
canonical form is appended to `ignored` and `False` is returned; otherwise
it is appended to `executed` and the physical flag is returned. -/
def record (canon : String) (s : ToolState) : Bool × ToolState :=
  if s.execute then (s.physical, { s with executed := s.executed ++ [canon] })
  else (false, { s with ignored := s.ignored ++ [canon] })

/-- The decimal digit character for `d < 10`. -/
def digitChar (d : ℕ) : Char := Char.ofNat (48 + d)

/-- Fuel-indexed helper for `natDigits`; the fuel only serves structural
recursion and `natDigits` always supplies enough of it. -/
def natDigitsAux : ℕ → ℕ → List Char
  | 0, _ => []
  | fuel + 1, n =>
    if n < 10 then [digitChar n]
    else natDigitsAux fuel (n / 10) ++ [digitChar (n % 10)]

/-- The decimal digit string of a natural number, most significant first:
the behaviour of Python `str` on a non-negative integer. -/
def natDigits (n : ℕ) : List Char := natDigitsAux (n + 1) n

/-- Python `str` of an integer. -/
def intStr (n : ℤ) : String :=
  if n < 0 then String.mk ('-' :: natDigits n.natAbs)
  else String.mk (natDigits n.toNat)

/-- The canonical string form `click(ix, iy)` produced in `tools.click`. -/
def canonClick (x y : ℤ) : String :=
  "click(" ++ intStr x ++ ", " ++ intStr y ++ ")"

/-- The canonical string form produced in `tools.right_click`. -/
def canonRightClick (x y : ℤ) : String :=
  "right_click(" ++ intStr x ++ ", " ++ intStr y ++ ")"

/-- The canonical string form produced in `tools.double_click`. -/
def canonDoubleClick (x y : ℤ) : String :=
  "double_click(" ++ intStr x ++ ", " ++ intStr y ++ ")"

/-- The canonical string form produced in `tools.drag`. -/
def canonDrag (x1 y1 x2 y2 : ℤ) : String :=
  "drag(" ++ intStr x1 ++ ", " ++ intStr y1 ++ ", "
    ++ intStr x2 ++ ", " ++ intStr y2 ++ ")"

/-- Model of Python `json.dumps` on a string (double quoting plus escaping;
escaping of the characters that matter for the canonical forms). -/
def jsonEscapeChar (c : Char) : List Char :=
  if c = '"' then ['\\', '"']
  else if c = '\\' then ['\\', '\\']
  else if c = '\n' then ['\\', 'n']
  else if c = '\r' then ['\\', 'r']
  else if c = '\t' then ['\\', 't']
  else [c]

/-- Model of Python `json.dumps` applied to a string. -/
def jsonDumps (t : String) : String :=
  "\"" ++ String.mk (t.toList.flatMap jsonEscapeChar) ++ "\""

/-- Shallow embedding of `tools.click`: validate both coordinates (each
raise propagates, leaving the state untouched), record the canonical form,
and inject physical input only when `_record` returned `True`. -/
def click (x y : PyVal) (s : ToolState) : Except PyErr Unit × ToolState :=
  match validate_coord x with
  | .error e => (.error e, s)
  | .ok ix =>
    match validate_coord y with
    | .error e => (.error e, s)
    | .ok iy =>
      let r := record (canonClick ix iy) s
      if r.1 then (.ok (), { r.2 with os := r.2.os ++ [.click ix iy] })
      else (.ok (), r.2)

/-- Shallow embedding of `tools.right_click`. -/
def right_click (x y : PyVal) (s : ToolState) : Except PyErr Unit × ToolState :=
  match validate_coord x with
  | .error e => (.error e, s)
  | .ok ix =>
    match validate_coord y with
    | .error e => (.error e, s)
    | .ok iy =>
      let r := record (canonRightClick ix iy) s
      if r.1 then (.ok (), { r.2 with os := r.2.os ++ [.rightClick ix iy] })
      else (.ok (), r.2)

/-- Shallow embedding of `tools.double_click`. -/
def double_click (x y : PyVal) (s : ToolState) : Except PyErr Unit × ToolState :=
  match validate_coord x with
  | .error e => (.error e, s)
  | .ok ix =>
    match validate_coord y with
    | .error e => (.error e, s)
    | .ok iy =>
      let r := record (canonDoubleClick ix iy) s
      if r.1 then (.ok (), { r.2 with os := r.2.os ++ [.doubleClick ix iy] })
      else (.ok (), r.2)

/-- Shallow embedding of `tools.drag`: all four coordinates are validated
(in source order) before anything is recorded. -/
def drag (x1 y1 x2 y2 : PyVal) (s : ToolState) : Except PyErr Unit × ToolState :=
  match validate_coord x1 with
  | .error e => (.error e, s)
  | .ok i1 =>
    match validate_coord y1 with
    | .error e => (.error e, s)
    | .ok j1 =>
      match validate_coord x2 with
      | .error e => (.error e, s)
      | .ok i2 =>
        match validate_coord y2 with
        | .error e => (.error e, s)
        | .ok j2 =>
          let r := record (canonDrag i1 j1 i2 j2) s
          if r.1 then (.ok (), { r.2 with os := r.2.os ++ [.drag i1 j1 i2 j2] })
          else (.ok (), r.2)

/-- Shallow embedding of `tools.write`: a non-string raises `TypeError`;
otherwise the canonical form is recorded and, in the physical mode only,
synthetic key events are injected. -/
def write (t : PyVal) (s : ToolState) : Except PyErr Unit × ToolState :=
  match t with
  | .str txt =>
    let r := record ("write(" ++ jsonDumps txt ++ ")") s
    if r.1 then (.ok (), { r.2 with os := r.2.os ++ [.typeText txt] })
    else (.ok (), r.2)
  | _ => (.error .typeError, s)

/-- Shallow embedding of `tools.remember`.  Note the source-faithful order:
the note store (`memory.json`) is read, appended to, and written back
BEFORE `_record` is consulted, so the append happens in every mode. -/
def remember (t : PyVal) (s : ToolState) : Except PyErr Unit × ToolState :=
  match t with
  | .str txt =>
    let s1 := { s with memory := s.memory ++ [txt] }
    let r := record ("remember(" ++ jsonDumps txt ++ ")") s1
    (.ok (), r.2)
  | _ => (.error .typeError, s)

/-- Shallow embedding of `tools.recall` (primed because the source name
is a reserved word here): the note store is read and rendered as a
bulleted string, or the placeholder is returned when it is empty (absent
or unreadable on disk).  `_record` is never called in the source, so
nothing is appended to `executed` OR `ignored` and the state is returned
unchanged in every execution mode. -/
def recall' (s : ToolState) : Except PyErr String × ToolState :=
  if s.memory.isEmpty then (.ok "(no memories yet)", s)
  else (.ok (String.intercalate "\n" (s.memory.map (fun t => "- " ++ t))), s)

/-- Shallow embedding of `capture._load_canvas`: the on-disk canvas file
(modelled as `Option` of its byte list, `Option.none` when absent or
unreadable) is returned only when its length is exactly `w*h*4`; in every
other case a zero-filled buffer of that exact size replaces it. -/
def load_canvas (w h : ℕ) (disk : Option (List ℕ)) : List ℕ :=
  let expected := w * h * 4
  match disk with
  | some data => if data.length = expected then data else List.replicate expected 0
  | Option.none => List.replicate expected 0

/-! ## The invocation grammar

`execute._extract_executable_lines` and `capture._parse_action_coords`
both delegate line recognition to Python's `ast` module.  The functions
below model the behaviour of `ast.parse(line, mode="eval")` on the
single-line call fragment relevant to this system: a (possibly dotted)
identifier applied to comma-separated arguments that are non-negative
integer literals, quoted string literals, `True`/`False`, or plain
names.  Lines outside this fragment are modelled as parse failures.

This fragment coincides with CPython's parser on the canonical action
lines the tools emit, and the theorems below evaluate it ONLY on such
lines (the round trip C2, and the cursor update C7, whose action lists
are the recorded canonical forms).  The statements about the extractor
on arbitrary input (C4, C5) do not use the fragment: there the host
parser is abstracted as a quantified parameter (`lineExecutableWith`,
`extractWith` below), exactly as zlib is for the PNG container. -/

/-- The backtick character (spelled by code to keep the source free of
stray quoting). -/
def tickCh : Char := Char.ofNat 96

/-- The single-quote character. -/
def squoteCh : Char := Char.ofNat 39

/-- The double-quote character. -/
def dquoteCh : Char := Char.ofNat 34

/-- The backslash character. -/
def backslashCh : Char := Char.ofNat 92

/-- ASCII whitespace in the sense of Python's `str.strip` and the regex
class `\s`. -/
def isPyWs (c : Char) : Bool :=
  c = ' ' || c = '\t' || c = '\n' || c = '\r' || c = Char.ofNat 11 || c = Char.ofNat 12

/-- Characters allowed to start a Python identifier (ASCII fragment). -/
def isIdentStart (c : Char) : Bool := c.isAlpha || c = '_'

/-- Characters allowed inside a Python identifier (ASCII fragment). -/
def isIdentChar (c : Char) : Bool := c.isAlpha || c.isDigit || c = '_'

/-- Skip spaces and tabs inside a single line. -/
def skipWs : List Char → List Char
  | [] => []
  | c :: rest => if c = ' ' || c = '\t' then skipWs rest else c :: rest

/-- Numeric value of a digit run, most significant first. -/
def digitsToNat (l : List Char) : ℕ :=
  l.foldl (fun a c => 10 * a + (c.toNat - 48)) 0

/-- An argument of a parsed call. -/
inductive PyArg where
  | intLit (n : ℤ)
  | strLit (s : String)
  | nameArg (s : String)
deriving DecidableEq, Repr

/-- The callee shape of a parsed call: a bare name (`ast.Name`) or a
dotted reference, of which only the final attribute matters
(`ast.Attribute`). -/
inductive PyCallee where
  | bare (s : String)
  | attr (s : String)
deriving DecidableEq, Repr

/-- Read an identifier; `Option.none` when the input does not start with one. -/
def takeIdent : List Char → Option (String × List Char)
  | [] => Option.none
  | c :: rest =>
    if isIdentStart c then
      some (String.mk (c :: rest.takeWhile isIdentChar), rest.dropWhile isIdentChar)
    else Option.none

/-- Read the rest of a dotted reference `.ident.ident...`, collecting the
names; the fuel bounds the number of dots and is always supplied
adequately. -/
def takeDottedRest : ℕ → List Char → List String → Option (List String × List Char)
  | 0, _, _ => Option.none
  | fuel + 1, l, acc =>
    match l with
    | c :: rest =>
      if c = '.' then
        match takeIdent rest with
        | some (name, rest2) => takeDottedRest fuel rest2 (acc ++ [name])
        | Option.none => Option.none
      else some (acc, c :: rest)
    | [] => some (acc, [])

/-- Read the body of a quoted string literal up to the closing quote,
skipping over backslash escapes. -/
def takeStrBody (q : Char) : ℕ → List Char → Option (List Char × List Char)
  | 0, _ => Option.none
  | _ + 1, [] => Option.none
  | fuel + 1, c :: rest =>
    if c = q then some ([], rest)
    else if c = backslashCh then
      match rest with
      | e :: rest2 =>
        match takeStrBody q fuel rest2 with
        | some (body, after) => some (c :: e :: body, after)
        | Option.none => Option.none
      | [] => Option.none
    else
      match takeStrBody q fuel rest with
      | some (body, after) => some (c :: body, after)
      | Option.none => Option.none

/-- Read one call argument: a non-negative integer literal, a quoted
string literal, `True`/`False` (numeric constants in the `ast`), or a
plain name. -/
def takeArg (l : List Char) : Option (PyArg × List Char) :=
  match l with
  | [] => Option.none
  | c :: rest =>
    if c.isDigit then
      some (.intLit (digitsToNat ((c :: rest).takeWhile Char.isDigit)),
            (c :: rest).dropWhile Char.isDigit)
    else if c = dquoteCh || c = squoteCh then
      match takeStrBody c (rest.length + 1) rest with
      | some (body, after) => some (.strLit (String.mk body), after)
      | Option.none => Option.none
    else
      match takeIdent (c :: rest) with
      | some (name, after) =>
        if name = "True" then some (.intLit 1, after)
        else if name = "False" then some (.intLit 0, after)
        else some (.nameArg name, after)
      | Option.none => Option.none

/-- Read the `, arg`* tail of an argument list up to the closing
parenthesis (allowing Python's trailing comma). -/
def takeArgsRest : ℕ → List Char → List PyArg → Option (List PyArg × List Char)
  | 0, _, _ => Option.none
  | fuel + 1, l, acc =>
    match skipWs l with
    | [] => Option.none
    | c :: rest =>
      if c = ')' then some (acc, rest)
      else if c = ',' then
        match skipWs rest with
        | d :: rest2 =>
          if d = ')' then some (acc, rest2)
          else
            match takeArg (d :: rest2) with
            | some (a, after) => takeArgsRest fuel after (acc ++ [a])
            | Option.none => Option.none
        | [] => Option.none
      else Option.none

/-- Model of `ast.parse(line, mode="eval")` restricted to call
expressions of the modelled fragment: returns the callee and argument
list when the whole line is a single call, `Option.none` otherwise. -/
def parseCallOfLine (l : List Char) : Option (PyCallee × List PyArg) :=
  match takeIdent (skipWs l) with
  | Option.none => Option.none
  | some (first, rest) =>
    match takeDottedRest (rest.length + 1) rest [first] with
    | Option.none => Option.none
    | some (path, rest1) =>
      match skipWs rest1 with
      | [] => Option.none
      | c :: rest2 =>
        if c = '(' then
          let callee : PyCallee :=
            match path with
            | [single] => .bare single
            | _ => .attr (path.getLastD "")
          match skipWs rest2 with
          | [] => Option.none
          | d :: rest3 =>
            let argsParsed : Option (List PyArg × List Char) :=
              if d = ')' then some ([], rest3)
              else
                match takeArg (d :: rest3) with
                | some (a, after) => takeArgsRest (after.length + 1) after [a]
                | Option.none => Option.none
            match argsParsed with
            | some (args, rest4) =>
              if (skipWs rest4).isEmpty then some (callee, args) else Option.none
            | Option.none => Option.none
        else Option.none

/-- The closed operation set `tools.TOOL_NAMES` (eight names, `help`
included). -/
def TOOL_NAMES : List String :=
  ["click", "right_click", "double_click", "drag", "write",
   "remember", "recall", "help"]

/-- The extractor's per-line filter (`execute._extract_executable_lines`,
final loop) instantiated with the fragment parser: the line parses as a
call whose callee is a bare name in `TOOL_NAMES`, or an attribute whose
final component is in `TOOL_NAMES`.  Used only on canonical action
lines, where the fragment agrees with the host parser; the claims about
arbitrary input use the abstracted `lineExecutableWith` instead. -/
def line_is_executable (l : List Char) : Bool :=
  match parseCallOfLine l with
  | some (.bare s, _) => TOOL_NAMES.contains s
  | some (.attr s, _) => TOOL_NAMES.contains s
  | Option.none => false

/-! ## Text handling: splitlines, strip and markdown fences -/

/-- Normalize line breaks: both `\r\n` and a lone `\r` become `\n`
(the break characters recognized by `str.splitlines` that occur here). -/
def normNl : List Char → List Char
  | [] => []
  | [c] => if c = '\r' then ['\n'] else [c]
  | c :: d :: rest =>
    if c = '\r' then
      if d = '\n' then '\n' :: normNl rest else '\n' :: normNl (d :: rest)
    else c :: normNl (d :: rest)

/-- Split on `\n`, accumulating the current line in reverse; a trailing
break produces no trailing empty line, matching `str.splitlines`. -/
def splitNlAux : List Char → List Char → List (List Char)
  | [], cur => [cur.reverse]
  | c :: rest, cur =>
    if c = '\n' then
      cur.reverse :: (match rest with | [] => [] | _ => splitNlAux rest [])
    else splitNlAux rest (c :: cur)

/-- Model of Python `str.splitlines`. -/
def pySplitlines (l : List Char) : List (List Char) :=
  match l with
  | [] => []
  | _ => splitNlAux (normNl l) []

/-- Model of Python `str.strip` with no argument: remove leading and
trailing whitespace. -/
def pyStrip (l : List Char) : List Char :=
  ((l.dropWhile isPyWs).reverse.dropWhile isPyWs).reverse

/-- Locate the next closing fence marker: returns the text before it and
the text after it, `Option.none` when there is none.  (The fence marker is
three backticks; this comment spells placeholder letters to keep the
source clean of the marker itself.) -/
def splitAtFence : List Char → Option (List Char × List Char)
  | [] => Option.none
  | c :: rest =>
    if c = tickCh && [tickCh, tickCh].isPrefixOf rest then
      some ([], rest.drop 2)
    else
      match splitAtFence rest with
      | some (pre, after) => some (c :: pre, after)
      | Option.none => Option.none

/-- Model of the regex fragment `\s*\n` with backtracking, as it behaves
after the opening fence: consume whitespace up to and including the LAST
newline of the maximal whitespace run; fail when the run contains no
newline. -/
def afterWsNl : List Char → Option (List Char)
  | [] => Option.none
  | c :: rest =>
    if c = '\n' then
      match afterWsNl rest with
      | some r => some r
      | Option.none => some rest
    else if isPyWs c then afterWsNl rest
    else Option.none

/-- Try to complete a fence opened by three backticks: optional language
tag (`python` preferred over `py`, then none, in regex alternation
order), the `\s*\n` fragment, then the non-greedy body up to the closing
fence.  Returns the captured body and the text after the closing fence. -/
def tryOpenFence (l : List Char) : Option (List Char × List Char) :=
  let attempt : List Char → Option (List Char × List Char) := fun l' =>
    match afterWsNl l' with
    | some body => splitAtFence body
    | Option.none => Option.none
  if "python".toList.isPrefixOf l then
    match attempt (l.drop 6) with
    | some r => some r
    | Option.none =>
      if "py".toList.isPrefixOf l then
        match attempt (l.drop 2) with
        | some r => some r
        | Option.none => attempt l
      else attempt l
  else if "py".toList.isPrefixOf l then
    match attempt (l.drop 2) with
    | some r => some r
    | Option.none => attempt l
  else attempt l

/-- Scan the text for fenced code blocks, modelling
`_FENCE_RE.findall`: at each occurrence of the opening marker, try to
complete a block; on success continue after the closing marker, on
failure continue one character later.  The fuel bounds the number of scan
steps and is always supplied adequately (each step consumes at least one
character). -/
def findFencesAux : ℕ → List Char → List (List Char)
  | 0, _ => []
  | fuel + 1, l =>
    match l with
    | [] => []
    | c :: rest =>
      if c = tickCh && [tickCh, tickCh].isPrefixOf rest then
        match tryOpenFence (rest.drop 2) with
        | some (content, after) => content :: findFencesAux fuel after
        | Option.none => findFencesAux fuel rest
      else findFencesAux fuel rest

/-- Model of `_FENCE_RE.findall(raw)`. -/
def findFences (l : List Char) : List (List Char) :=
  findFencesAux (l.length + 1) l

/-! ## The invocation extractor (`execute._extract_executable_lines`) -/

/-- Accumulate the stripped, non-empty, first-seen-order-deduplicated
lines of one source text onto `acc`; `acc` doubles as the seen set,
exactly as `seen`/`all_lines` grow in lockstep in the source. -/
def addLines (acc : List (List Char)) (src : List Char) : List (List Char) :=
  (pySplitlines src).foldl
    (fun acc line =>
      let st := pyStrip line
      if st.isEmpty || acc.contains st then acc else acc ++ [st])
    acc

/-- The candidate line list of `_extract_executable_lines`: fenced
contents (stripped, joined by newlines) are scanned ahead of the full
raw text when fences are present; lines are stripped, blank lines
skipped, duplicates dropped keeping first-seen order. -/
def candidateLines (raw : List Char) : List (List Char) :=
  (if (findFences raw).isEmpty then [raw]
   else [List.intercalate ['\n'] ((findFences raw).map pyStrip), raw]).foldl addLines []

/-- Shallow embedding of `execute._extract_executable_lines`
instantiated with the fragment parser above; this instantiation is
evaluated only on canonical action lines (C2), where the fragment
coincides with CPython's parser. -/
def extract_executable_lines (raw : String) : List String :=
  ((candidateLines raw.toList).filter line_is_executable).map String.mk

/-- What the extractor's filter inspects of an `ast.parse(line,
mode="eval")` result: the shape of the callee — an `ast.Name` with its
`id`, an `ast.Attribute` with its final `attr`, or any other expression
in call position.  Arguments are not represented because the filter at
`execute.py:101-116` never reads them. -/
inductive AstCallee where
  | name (s : String)
  | attr (s : String)
  | other
deriving DecidableEq, Repr

/-- The top-level node of an `ast.parse(line, mode="eval")` result, to
the extent the filter inspects it: a call (with its callee shape) or any
non-call expression. -/
inductive AstExpr where
  | call (f : AstCallee)
  | notCall
deriving DecidableEq, Repr

/-- The per-line filter of `execute._extract_executable_lines` (final
loop), abstracted over the host parser `astParse` — CPython's
`ast.parse(line, mode="eval")`, with a raised `SyntaxError` modelled as
`Option.none`: the parse must succeed, the body must be a call, and the
callee must be a `Name` whose id, or an `Attribute` whose final
attribute, is in `TOOL_NAMES`; every other outcome is rejected. -/
def lineExecutableWith (astParse : List Char → Option AstExpr) (l : List Char) : Bool :=
  match astParse l with
  | some (.call (.name s)) => TOOL_NAMES.contains s
  | some (.call (.attr s)) => TOOL_NAMES.contains s
  | some (.call .other) => false
  | some .notCall => false
  | Option.none => false

/-- `execute._extract_executable_lines` abstracted over the host-parser
leaf: the candidate lines (fence scan, strip, dedup — all concrete)
filtered by the per-line whitelist filter. -/
def extractWith (astParse : List Char → Option AstExpr) (raw : String) : List String :=
  ((candidateLines raw.toList).filter (lineExecutableWith astParse)).map String.mk

/-- The value CPython's `ast.parse(·, mode="eval")` takes on the lines
the C5 witness exercises: `click(1.5, 2)` parses as a call of the bare
name `click` (arguments are irrelevant to the filter), while
`click(007)` raises `SyntaxError` (Python 3 rejects leading zeros),
modelled as `Option.none`. -/
def witnessAst : List Char → Option AstExpr := fun l =>
  if l = "click(1.5, 2)".toList then some (.call (.name "click")) else Option.none

/-! ## Marks and cursor state (`capture.py`) -/

/-- Shallow embedding of `capture._parse_action_coords`: parse the
stripped line; a non-call or a non-`Name` callee yields `("", [])`;
otherwise the name and the integer-valued constant arguments (in order,
non-constants dropped). -/
def parse_action_coords (line : String) : String × List ℤ :=
  match parseCallOfLine (pyStrip line.toList) with
  | some (.bare name, args) =>
    (name, args.filterMap fun a =>
      match a with
      | .intLit n => some n
      | _ => Option.none)
  | _ => ("", [])

/-- A rendering-ready mark, as built by `capture._actions_to_marks`. -/
inductive Mark where
  | click (x y : ℤ)
  | double_click (x y : ℤ)
  | right_click (x y : ℤ)
  | drag (x1 y1 x2 y2 : ℤ)
deriving DecidableEq, Repr

/-- Shallow embedding of `capture._actions_to_marks`: each action line is
parsed and the recognized pointer operations with enough numeric
arguments become marks, in order. -/
def actions_to_marks (actions : List String) : List Mark :=
  actions.filterMap fun line =>
    match parse_action_coords line with
    | ("click", x :: y :: _) => some (.click x y)
    | ("double_click", x :: y :: _) => some (.double_click x y)
    | ("right_click", x :: y :: _) => some (.right_click x y)
    | ("drag", x1 :: y1 :: x2 :: y2 :: _) => some (.drag x1 y1 x2 y2)
    | _ => Option.none

/-- The persisted cursor state `{last_x, last_y, prev_x, prev_y}`. -/
structure CursorState where
  last_x : Option ℤ
  last_y : Option ℤ
  prev_x : Option ℤ
  prev_y : Option ℤ
deriving DecidableEq, Repr

/-- The per-action update of the loop body of
`capture._update_cursor_state`: clicks with at least two numeric
arguments move `last_*` to their first two, drags with at least four move
it to their third and fourth. -/
def cursorStep (st : CursorState) (line : String) : CursorState :=
  match parse_action_coords line with
  | ("click", x :: y :: _) => { st with last_x := some x, last_y := some y }
  | ("right_click", x :: y :: _) => { st with last_x := some x, last_y := some y }
  | ("double_click", x :: y :: _) => { st with last_x := some x, last_y := some y }
  | ("drag", _ :: _ :: x2 :: y2 :: _) => { st with last_x := some x2, last_y := some y2 }
  | _ => st

/-- Shallow embedding of `capture._update_cursor_state` (pure core):
`prev_*` is overwritten with the prior `last_*`, then the action list is
folded through `cursorStep`. -/
def update_cursor_state (actions : List String) (st : CursorState) : CursorState :=
  actions.foldl cursorStep { st with prev_x := st.last_x, prev_y := st.last_y }

/-- Modelled from the spec (C7): the endpoint a pointer-moving invocation
leaves the cursor at — `(x, y)` of a click/right-click/double-click,
`(x2, y2)` of a drag — or `Option.none` for any other line. -/
def pointerEndpoint (line : String) : Option (ℤ × ℤ) :=
  match parse_action_coords line with
  | ("click", x :: y :: _) => some (x, y)
  | ("right_click", x :: y :: _) => some (x, y)
  | ("double_click", x :: y :: _) => some (x, y)
  | ("drag", _ :: _ :: x2 :: y2 :: _) => some (x2, y2)
  | _ => Option.none

/-- Modelled from the spec (C7): the endpoint of the turn's LAST
pointer-moving invocation, if any. -/
def lastEndpoint (actions : List String) : Option (ℤ × ℤ) :=
  (actions.filterMap pointerEndpoint).getLast?

/-! ## The PNG encoder (`capture._encode_png`)

The two host-library leaves, `zlib.compress` (with its level argument)
and `zlib.crc32`, are abstracted as function parameters: the claims about
the encoder concern the container structure, which is independent of the
compressor's internals. -/

/-- Big-endian 4-byte encoding: the behaviour of a `struct.pack` field of
shape `greater-than I` on a value below `2^32`. -/
def be32 (n : ℕ) : List ℕ :=
  [n / 2 ^ 24 % 256, n / 2 ^ 16 % 256, n / 2 ^ 8 % 256, n % 256]

/-- The fixed 8-byte PNG signature written by the encoder. -/
def pngSignature : List ℕ := [137, 80, 78, 71, 13, 10, 26, 10]

/-- ASCII bytes of the image-header chunk tag. -/
def ihdrTag : List ℕ := [73, 72, 68, 82]

/-- ASCII bytes of the image-data chunk tag. -/
def idatTag : List ℕ := [73, 68, 65, 84]

/-- ASCII bytes of the image-end chunk tag. -/
def iendTag : List ℕ := [73, 69, 78, 68]

/-- Shallow embedding of the inner `chunk` helper of `_encode_png`:
big-endian payload length, tag, payload, then the CRC32 of tag plus
payload masked to 32 bits. -/
def pngChunk (crc32 : List ℕ → ℕ) (tag body : List ℕ) : List ℕ :=
  be32 body.length ++ tag ++ body ++ be32 (crc32 (tag ++ body) % 2 ^ 32)

/-- Shallow embedding of the scanline serialization loop of
`_encode_png`: each row of `w*4` bytes is prefixed with the filter byte
`0` and appended to the accumulator. -/
def pngRaw (rgba : List ℕ) (w h : ℕ) : List ℕ :=
  (List.range h).foldl
    (fun acc y => acc ++ (0 :: ((rgba.drop (y * (w * 4))).take (w * 4))))
    []

/-- Shallow embedding of `capture._encode_png`: signature, header chunk
declaring width, height, bit depth 8 and color type 6, one data chunk
holding the level-6 deflate stream of the filter-prefixed scanlines, and
an empty end chunk. -/
def encode_png (compress : List ℕ → ℕ → List ℕ) (crc32 : List ℕ → ℕ)
    (rgba : List ℕ) (w h : ℕ) : List ℕ :=
  pngSignature
    ++ pngChunk crc32 ihdrTag (be32 w ++ be32 h ++ [8, 6, 0, 0, 0])
    ++ pngChunk crc32 idatTag (compress (pngRaw rgba w h) 6)
    ++ pngChunk crc32 iendTag []

/-- Modelled from the spec: the scanline serialization as the spec
describes it, "scanlines each prefixed by a single filter-type byte fixed
to none, concatenated" — a map over the rows followed by concatenation,
stated independently of the encoder's accumulator loop. -/
def scanlinesSpec (rgba : List ℕ) (w h : ℕ) : List ℕ :=
  ((List.range h).map fun y => 0 :: ((rgba.drop (y * (w * 4))).take (w * 4))).flatten

/-! ## Drawing primitives (`capture._draw_circle_bgra`, `_draw_line_bgra`)

A `bytearray` is a `List ℕ` whose elements are below 256; reads and
writes through `pyGet`/`pySet` return `Option.none` exactly where Python
would raise (an index out of range, a written value that is not a byte).
Python float arithmetic in the alpha blend is modelled by exact rational
arithmetic with `int()` as truncation; the blend's range behaviour, which
is all the claims use, is identical. -/

/-- Python `range(lo, hi)` over integers. -/
def intRange (lo hi : ℤ) : List ℤ :=
  (List.range (hi - lo).toNat).map fun k => lo + k

/-- Read a byte of a `bytearray` at a Python index (negative indices wrap
from the end); `Option.none` models an `IndexError`. -/
def pyGet (buf : List ℕ) (i : ℤ) : Option ℕ :=
  if 0 ≤ i then
    if i.toNat < buf.length then some (buf.getD i.toNat 0) else Option.none
  else
    if i.natAbs ≤ buf.length then some (buf.getD (buf.length - i.natAbs) 0)
    else Option.none

/-- Write a byte of a `bytearray` at a Python index; `Option.none` models
an `IndexError` (index out of range) or a `ValueError` (assigned value
not in `[0, 256)`). -/
def pySet (buf : List ℕ) (i : ℤ) (v : ℤ) : Option (List ℕ) :=
  if 0 ≤ v ∧ v < 256 then
    if 0 ≤ i then
      if i.toNat < buf.length then some (buf.set i.toNat v.toNat) else Option.none
    else
      if i.natAbs ≤ buf.length then some (buf.set (buf.length - i.natAbs) v.toNat)
      else Option.none
  else Option.none

/-- The alpha-blended channel value `int(src*fa + dst*inv)` with
`fa = a/255`, `inv = 1 - fa`. -/
def blendVal (a src dst : ℕ) : ℤ :=
  pyTrunc ((src : ℚ) * ((a : ℚ) / 255) + (dst : ℚ) * (1 - (a : ℚ) / 255))

/-- The blended alpha-channel value `min(255, int(a + dst*inv))`. -/
def alphaVal (a dst : ℕ) : ℤ :=
  min 255 (pyTrunc ((a : ℚ) + (dst : ℚ) * (1 - (a : ℚ) / 255)))

/-- The four sequential read-blend-write steps shared by the `a < 255`
branch of the circle primitive and by the line primitive. -/
def blendAt (buf : List ℕ) (i : ℤ) (b g r a : ℕ) : Option (List ℕ) := do
  let d0 ← pyGet buf i
  let buf1 ← pySet buf i (blendVal a b d0)
  let d1 ← pyGet buf1 (i + 1)
  let buf2 ← pySet buf1 (i + 1) (blendVal a g d1)
  let d2 ← pyGet buf2 (i + 2)
  let buf3 ← pySet buf2 (i + 2) (blendVal a r d2)
  let d3 ← pyGet buf3 (i + 3)
  pySet buf3 (i + 3) (alphaVal a d3)

/-- The four sequential overwrite steps of the opaque (`a >= 255`) branch
of the circle primitive. -/
def setAt (buf : List ℕ) (i : ℤ) (b g r : ℕ) : Option (List ℕ) := do
  let buf1 ← pySet buf i b
  let buf2 ← pySet buf1 (i + 1) g
  let buf3 ← pySet buf2 (i + 2) r
  pySet buf3 (i + 3) 255

/-- Option-propagating left fold: the loop shape of the drawing code,
where any raised exception aborts the whole call. -/
def foldOpt {α β : Type} (f : β → α → Option β) : List α → β → Option β
  | [], b => some b
  | x :: xs, b =>
    match f b x with
    | some b' => foldOpt f xs b'
    | Option.none => Option.none

/-- Shallow embedding of `capture._draw_circle_bgra`: scan the bounding
square, skip rows outside the buffer, skip offsets outside the disc,
skip columns outside the buffer, and write opaquely or alpha-blend
according to `a`. -/
def draw_circle_bgra (buf : List ℕ) (w h : ℕ) (px py radius : ℤ)
    (b g r a : ℕ) : Option (List ℕ) :=
  let r2 := radius * radius
  foldOpt
    (fun buf oy =>
      let yy := py + oy
      if yy < 0 ∨ (h : ℤ) ≤ yy then some buf
      else
        foldOpt
          (fun buf ox =>
            if ox * ox + oy * oy > r2 then some buf
            else
              let xx := px + ox
              if 0 ≤ xx ∧ xx < (w : ℤ) then
                let i := (yy * w + xx) * 4
                if 255 ≤ a then setAt buf i b g r else blendAt buf i b g r a
              else some buf)
          (intRange (-radius) (radius + 1)) buf)
    (intRange (-radius) (radius + 1)) buf

/-- One thickness-square stamp of the line primitive at `(x, y)`. -/
def lineStamp (buf : List ℕ) (w h : ℕ) (x y half : ℤ) (b g r a : ℕ) :
    Option (List ℕ) :=
  foldOpt
    (fun buf oy =>
      let yy := y + oy
      if yy < 0 ∨ (h : ℤ) ≤ yy then some buf
      else
        foldOpt
          (fun buf ox =>
            let xx := x + ox
            if 0 ≤ xx ∧ xx < (w : ℤ) then
              blendAt buf ((yy * w + xx) * 4) b g r a
            else some buf)
          (intRange (-half) (half + 1)) buf)
    (intRange (-half) (half + 1)) buf

/-- The Bresenham stepping loop of `_draw_line_bgra`.  The source loops
`while True`; here the loop is fuel-indexed, `Option.none` standing for
fuel exhaustion, and `draw_line_bgra` supplies `dx + dy + 1` units, an
amount proved sufficient below (`draw_line_loop_runs`). -/
def lineLoop (w h : ℕ) (x2 y2 sx sy dx dy half : ℤ) (b g r a : ℕ) :
    ℕ → ℤ → ℤ → ℤ → List ℕ → Option (List ℕ)
  | 0, _, _, _, _ => Option.none
  | fuel + 1, x, y, err, buf =>
    match lineStamp buf w h x y half b g r a with
    | Option.none => Option.none
    | some buf1 =>
      if x = x2 ∧ y = y2 then some buf1
      else
        let e2 := 2 * err
        let p := if e2 > -dy then (x + sx, err - dy) else (x, err)
        let q := if e2 < dx then (y + sy, p.2 + dx) else (y, p.2)
        lineLoop w h x2 y2 sx sy dx dy half b g r a fuel p.1 q.1 q.2 buf1

/-- Shallow embedding of `capture._draw_line_bgra`: Bresenham stepping
from `(x1, y1)` to `(x2, y2)`, stamping a thickness square at each step.
`half` is `thickness >> 1`, an arithmetic (floor) shift in Python. -/
def draw_line_bgra (buf : List ℕ) (w h : ℕ) (x1 y1 x2 y2 : ℤ)
    (b g r a : ℕ) (thickness : ℤ) : Option (List ℕ) :=
  let dx := |x2 - x1|
  let dy := |y2 - y1|
  let sx : ℤ := if x1 < x2 then 1 else -1
  let sy : ℤ := if y1 < y2 then 1 else -1
  let half := Int.fdiv thickness 2
  lineLoop w h x2 y2 sx sy dx dy half b g r a
    (dx.toNat + dy.toNat + 1) x1 y1 (dx - dy) buf

/-- Shallow embedding of `capture._norm`: clamp to `[0, 1000]`, scale
linearly to the extent, truncate. -/
def norm (v : ℤ) (extent : ℕ) : ℤ :=
  pyTrunc (((max 0 (min 1000 v) : ℤ) : ℚ) / 1000 * (extent : ℚ))

/-- Shallow embedding of `capture._draw_marks_on_canvas`: persistent
marks first (colors per kind as in the source), then the ephemeral
previous-cursor circle, then the two concentric current-cursor
circles. -/
def draw_marks_on_canvas (buf : List ℕ) (w h : ℕ) (marks : List Mark)
    (cs : CursorState) : Option (List ℕ) := do
  let bufM ← foldOpt
    (fun buf m =>
      match m with
      | .click x y => draw_circle_bgra buf w h (norm x w) (norm y h) 10 255 255 255 255
      | .double_click x y => draw_circle_bgra buf w h (norm x w) (norm y h) 10 0 220 0 255
      | .right_click x y => draw_circle_bgra buf w h (norm x w) (norm y h) 10 255 140 80 255
      | .drag x1 y1 x2 y2 =>
        draw_line_bgra buf w h (norm x1 w) (norm y1 h) (norm x2 w) (norm y2 h)
          0 220 255 220 4)
    marks buf
  let bufP ←
    match cs.prev_x, cs.prev_y with
    | some px, some py => draw_circle_bgra bufM w h (norm px w) (norm py h) 12 0 0 255 50
    | _, _ => some bufM
  match cs.last_x, cs.last_y with
  | some cx, some cy => do
    let bufC ← draw_circle_bgra bufP w h (norm cx w) (norm cy h) 14 255 255 255 180
    draw_circle_bgra bufC w h (norm cx w) (norm cy h) 10 0 0 255 200
  | _, _ => some bufP

/-- The render-and-encode composition used by the determinism claim: draw
onto a fresh zero buffer, then encode. -/
def renderAndEncode (compress : List ℕ → ℕ → List ℕ) (crc32 : List ℕ → ℕ)
    (w h : ℕ) (marks : List Mark) (cs : CursorState) : Option (List ℕ) :=
  match draw_marks_on_canvas (List.replicate (w * h * 4) 0) w h marks cs with
  | some buf => some (encode_png compress crc32 buf w h)
  | Option.none => Option.none

/-- Modelled from the spec (C1): the acceptance predicate the claim
ascribes to validation, as literally stated — the argument is a number
whose value is an integral value in `[0, 1000]` inclusive. -/
def specIntegralInRange (v : PyVal) : Prop :=
  v.isNumber = true ∧ (∃ n : ℤ, v.numVal = (n : ℚ)) ∧ 0 ≤ v.numVal ∧ v.numVal ≤ 1000

/-- The well-formedness invariant of a `bytearray` backing a `w*h*4`
pixel buffer: exact length, every element a byte. -/
def ByteBuf (n : ℕ) (buf : List ℕ) : Prop :=
  buf.length = n ∧ ∀ v ∈ buf, v < 256

/-- The character shape of the argument tail of a canonical invocation
string: `, n` repeated, then the closing parenthesis.  `canonClick x y`
is `"click" ++ "(" ++ digits of x ++ argsTailChars [y]`, and similarly
for the other canonical forms. -/
def argsTailChars : List ℕ → List Char
  | [] => [')']
  | n :: ns => ',' :: ' ' :: (natDigits n ++ argsTailChars ns)

/-- The characters canonical invocation strings are built from. -/
def okChar (c : Char) : Bool :=
  c.isDigit || c.isAlpha || c = '(' || c = ')' || c = ',' || c = ' ' || c = '_'

/-! # Theorems -/

/-- Truncation of an integer-valued rational is the integer itself. -/
theorem pyTrunc_intCast (n : ℤ) : pyTrunc ((n : ℤ) : ℚ) = n := by
  simp [pyTrunc, Rat.num_intCast, Rat.den_intCast]

/-- Truncation agrees with the floor on non-negative rationals. -/
theorem pyTrunc_nonneg_eq_floor (q : ℚ) (hq : 0 ≤ q) : pyTrunc q = ⌊q⌋ := by
  rw [pyTrunc, Rat.floor_def]
  exact Int.tdiv_eq_ediv (Rat.num_nonneg.mpr hq) (Int.ofNat_nonneg q.den)

/-- C6: for every width and height, loading the canvas when the file is
absent yields the zero buffer, when its byte length differs from
`w*h*4` yields the zero buffer, and when the length matches returns the
stored bytes unchanged; in every case the result has exactly `w*h*4`
bytes, so a partial or mis-sized buffer is never returned. -/
theorem load_canvas_ok (w h : ℕ) (disk : Option (List ℕ)) :
    (load_canvas w h disk).length = w * h * 4
    ∧ (∀ data, disk = some data → data.length = w * h * 4 →
        load_canvas w h disk = data)
    ∧ (∀ data, disk = some data → data.length ≠ w * h * 4 →
        load_canvas w h disk = List.replicate (w * h * 4) 0)
    ∧ (disk = Option.none → load_canvas w h disk = List.replicate (w * h * 4) 0) := by
  rcases disk with _ | data
  · simp [load_canvas]
  · by_cases hl : data.length = w * h * 4 <;>
      simp_all [load_canvas]

/-- Witness for `load_canvas_ok`: a mis-sized one-byte file for a 2 by 1
canvas is replaced by eight zero bytes; a correctly sized file is
returned unchanged. -/
theorem load_canvas_ok_witness :
    load_canvas 2 1 (some [5]) = List.replicate 8 0
    ∧ load_canvas 2 1 (some (List.replicate 8 7)) = List.replicate 8 7 :=
  ⟨(load_canvas_ok 2 1 (some [5])).2.2.1 [5] rfl (by decide),
   (load_canvas_ok 2 1 (some (List.replicate 8 7))).2.1 (List.replicate 8 7) rfl (by decide)⟩

/-- The accumulator loop serializing scanlines equals the spec's
map-and-concatenate description. -/
theorem pngRaw_eq_scanlinesSpec (rgba : List ℕ) (w h : ℕ) :
    pngRaw rgba w h = scanlinesSpec rgba w h := by
  unfold pngRaw scanlinesSpec
  induction h with
  | zero => rfl
  | succ n ih =>
    rw [List.range_succ]
    simp [List.foldl_append, List.map_append, List.flatten_append, ih]

/-- C8: for every pixel buffer, the encoder output is exactly the fixed
8-byte signature, an IHDR chunk declaring width, height, bit depth 8 and
color type 6, a single IDAT chunk holding the level-6 (moderate) deflate
stream of the scanlines each prefixed with filter byte 0, and an empty
IEND chunk — each chunk framed as big-endian payload length, 4-byte tag,
payload, and the 32-bit CRC of tag plus payload.  The compressor and the
CRC are the two host-library leaves and are quantified over. -/
theorem encode_png_structure (compress : List ℕ → ℕ → List ℕ) (crc32 : List ℕ → ℕ)
    (rgba : List ℕ) (w h : ℕ) :
    encode_png compress crc32 rgba w h =
      pngSignature
        ++ pngChunk crc32 ihdrTag (be32 w ++ be32 h ++ [8, 6, 0, 0, 0])
        ++ pngChunk crc32 idatTag (compress (scanlinesSpec rgba w h) 6)
        ++ pngChunk crc32 iendTag []
    ∧ (∀ tag body, pngChunk crc32 tag body
        = be32 body.length ++ tag ++ body ++ be32 (crc32 (tag ++ body) % 2 ^ 32))
    ∧ pngSignature.length = 8 := by
  refine ⟨?_, fun tag body => rfl, rfl⟩
  unfold encode_png
  rw [pngRaw_eq_scanlinesSpec]

/-- C9: rendering and encoding are deterministic.  In this embedding the
renderer and the encoder are pure functions — faithfully so, because the
source draws with arithmetic on explicit inputs only and `zlib` at a
fixed level is deterministic — so drawing the same ordered mark list and
cursor state onto two fresh zero-filled buffers of the same dimensions,
and encoding the same pixel buffer twice, produce identical bytes by
reflexivity. -/
theorem render_encode_deterministic (w h : ℕ) (marks : List Mark) (cs : CursorState)
    (compress : List ℕ → ℕ → List ℕ) (crc32 : List ℕ → ℕ) :
    draw_marks_on_canvas (List.replicate (w * h * 4) 0) w h marks cs
      = draw_marks_on_canvas (List.replicate (w * h * 4) 0) w h marks cs
    ∧ (∀ rgba, encode_png compress crc32 rgba w h = encode_png compress crc32 rgba w h)
    ∧ renderAndEncode compress crc32 w h marks cs
      = renderAndEncode compress crc32 w h marks cs :=
  ⟨rfl, fun _ => rfl, rfl⟩

/-- C1 counterexample: the value one half is a number that is NOT an
integral value in `[0, 1000]`, yet validation accepts it (truncating to
0) instead of raising the range error the claim requires, and the
invocation reaches the executed list. -/
theorem validate_coord_c1_cex :
    validate_coord (.float (mkRat 1 2)) = .ok 0
    ∧ ¬ specIntegralInRange (.float (mkRat 1 2))
    ∧ (click (.float (mkRat 1 2)) (.int 0)
        ⟨true, false, [], [], [], []⟩).2.executed = ["click(0, 0)"] := by
  refine ⟨by decide, ?_, by decide⟩
  rintro ⟨-, ⟨n, hn⟩, -, -⟩
  have hd : (mkRat 1 2).den = 1 := by
    have := congrArg Rat.den hn
    simpa [PyVal.numVal, Rat.den_intCast] using this
  exact absurd hd (by decide)

/-- C1 (amended): validation raises the range error exactly when the
argument is a number whose `int()` truncation lies outside `[0, 1000]`
(so a non-integral number inside the range is truncated and accepted),
raises the type error exactly on non-numbers, and an invocation rejected
by either error leaves the tool state — the executed list included —
untouched. -/
theorem validate_coord_characterization (v : PyVal) :
    (validate_coord v = .error .valueError ↔
      v.isNumber = true ∧ ¬ (0 ≤ v.truncVal ∧ v.truncVal ≤ 1000))
    ∧ (validate_coord v = .error .typeError ↔ v.isNumber = false)
    ∧ (∀ r, validate_coord v = .ok r → r = v.truncVal ∧ 0 ≤ r ∧ r ≤ 1000)
    ∧ (∀ (s : ToolState) (x y : PyVal) (e : PyErr),
        (click x y s).1 = .error e → (click x y s).2 = s)
    ∧ (∀ (s : ToolState) (x y : PyVal) (e : PyErr),
        (right_click x y s).1 = .error e → (right_click x y s).2 = s)
    ∧ (∀ (s : ToolState) (x y : PyVal) (e : PyErr),
        (double_click x y s).1 = .error e → (double_click x y s).2 = s)
    ∧ (∀ (s : ToolState) (x1 y1 x2 y2 : PyVal) (e : PyErr),
        (drag x1 y1 x2 y2 s).1 = .error e → (drag x1 y1 x2 y2 s).2 = s) := by
  refine ⟨?_, ?_, ?_, ?_, ?_, ?_, ?_⟩
  · by_cases hn : v.isNumber <;> by_cases hr : 0 ≤ v.truncVal ∧ v.truncVal ≤ 1000 <;>
      simp [validate_coord, hn, hr]
  · by_cases hn : v.isNumber <;> by_cases hr : 0 ≤ v.truncVal ∧ v.truncVal ≤ 1000 <;>
      simp [validate_coord, hn, hr]
  · intro r h
    by_cases hn : v.isNumber <;> by_cases hr : 0 ≤ v.truncVal ∧ v.truncVal ≤ 1000 <;>
      simp [validate_coord, hn, hr] at h
    exact ⟨h.symm, h ▸ hr⟩
  · intro s x y e h
    rcases hx : validate_coord x with ex | ix
    · simp [click, hx]
    · rcases hy : validate_coord y with ey | iy
      · simp [click, hx, hy]
      · exfalso
        by_cases hrec : (record (canonClick ix iy) s).1 <;>
          simp [click, hx, hy, hrec] at h
  · intro s x y e h
    rcases hx : validate_coord x with ex | ix
    · simp [right_click, hx]
    · rcases hy : validate_coord y with ey | iy
      · simp [right_click, hx, hy]
      · exfalso
        by_cases hrec : (record (canonRightClick ix iy) s).1 <;>
          simp [right_click, hx, hy, hrec] at h
  · intro s x y e h
    rcases hx : validate_coord x with ex | ix
    · simp [double_click, hx]
    · rcases hy : validate_coord y with ey | iy
      · simp [double_click, hx, hy]
      · exfalso
        by_cases hrec : (record (canonDoubleClick ix iy) s).1 <;>
          simp [double_click, hx, hy, hrec] at h
  · intro s x1 y1 x2 y2 e h
    rcases h1 : validate_coord x1 with e1 | i1
    · simp [drag, h1]
    · rcases h2 : validate_coord y1 with e2 | j1
      · simp [drag, h1, h2]
      · rcases h3 : validate_coord x2 with e3 | i2
        · simp [drag, h1, h2, h3]
        · rcases h4 : validate_coord y2 with e4 | j2
          · simp [drag, h1, h2, h3, h4]
          · exfalso
            by_cases hrec : (record (canonDrag i1 j1 i2 j2) s).1 <;>
              simp [drag, h1, h2, h3, h4, hrec] at h

/-- Witness for `validate_coord_characterization`: the float 1001.5 is
range-rejected; a string first coordinate is type-rejected and the
rejected click leaves the state unchanged. -/
theorem validate_coord_characterization_witness :
    validate_coord (.float (mkRat 2003 2)) = .error .valueError
    ∧ (click (.str "a") (.int 3) ⟨true, false, [], [], [], []⟩).2
        = ⟨true, false, [], [], [], []⟩ :=
  ⟨(validate_coord_characterization (.float (mkRat 2003 2))).1.mpr (by decide),
   (validate_coord_characterization (.int 0)).2.2.2.1
     ⟨true, false, [], [], [], []⟩ (.str "a") (.int 3) .typeError (by decide)⟩

/-- C3 counterexample: with global execution disabled, a valid `remember`
invocation is recorded as ignored, yet the persisted note store IS
modified — the claim's "no persisted state is modified" fails. -/
theorem remember_disabled_mutates :
    (remember (.str "x") ⟨false, false, [], [], [], []⟩).2.memory = ["x"]
    ∧ (remember (.str "x") ⟨false, false, [], [], [], []⟩).2.ignored
        = ["remember(\"x\")"]
    ∧ (remember (.str "x") ⟨false, false, [], [], [], []⟩).2
        ≠ ⟨false, false, [], [], [], []⟩ := by
  refine ⟨by decide, by decide, ?_⟩
  intro h
  have := congrArg ToolState.memory h
  simp [remember, record] at this

/-- C3 (amended): when global execution is disabled, every valid
invocation of a RECORDING tool (click, right_click, double_click, drag,
write, remember — the six that call `_record`) is recorded as ignored,
the executed list is unchanged (hence no mark is ever generated from
this turn), no OS input is injected, and no persisted state changes —
with two deviations from the claim, both proved here: `remember` still
appends its text to the note store, because the source writes
`memory.json` before consulting `_record`; and `recall` is NOT recorded
as ignored at all, because `tools.recall` never calls `_record` — it
returns with the whole state unchanged. -/
theorem disabled_execution_effects (s : ToolState) (hs : s.execute = false) :
    (∀ x y ix iy, validate_coord x = .ok ix → validate_coord y = .ok iy →
      (click x y s).2 = { s with ignored := s.ignored ++ [canonClick ix iy] })
    ∧ (∀ x y ix iy, validate_coord x = .ok ix → validate_coord y = .ok iy →
      (right_click x y s).2 = { s with ignored := s.ignored ++ [canonRightClick ix iy] })
    ∧ (∀ x y ix iy, validate_coord x = .ok ix → validate_coord y = .ok iy →
      (double_click x y s).2 = { s with ignored := s.ignored ++ [canonDoubleClick ix iy] })
    ∧ (∀ x1 y1 x2 y2 i1 j1 i2 j2,
        validate_coord x1 = .ok i1 → validate_coord y1 = .ok j1 →
        validate_coord x2 = .ok i2 → validate_coord y2 = .ok j2 →
      (drag x1 y1 x2 y2 s).2
        = { s with ignored := s.ignored ++ [canonDrag i1 j1 i2 j2] })
    ∧ (∀ t : String, (write (.str t) s).2
        = { s with ignored := s.ignored ++ ["write(" ++ jsonDumps t ++ ")"] })
    ∧ (∀ t : String, (remember (.str t) s).2
        = { s with memory := s.memory ++ [t],
                   ignored := s.ignored ++ ["remember(" ++ jsonDumps t ++ ")"] })
    ∧ (recall' s).2 = s := by
  refine ⟨?_, ?_, ?_, ?_, ?_, ?_, ?_⟩
  · intro x y ix iy hx hy
    simp [click, hx, hy, record, hs]
  · intro x y ix iy hx hy
    simp [right_click, hx, hy, record, hs]
  · intro x y ix iy hx hy
    simp [double_click, hx, hy, record, hs]
  · intro x1 y1 x2 y2 i1 j1 i2 j2 h1 h2 h3 h4
    simp [drag, h1, h2, h3, h4, record, hs]
  · intro t
    simp [write, record, hs]
  · intro t
    simp [remember, record, hs]
  · by_cases hm : s.memory.isEmpty <;> simp [recall', hm]

/-- Witness for `disabled_execution_effects`: a disabled click is only
ignored; a disabled remember is ignored AND appends to the note store;
a disabled recall leaves the state untouched and appends to neither
list. -/
theorem disabled_execution_effects_witness :
    (click (.int 3) (.int 4) ⟨false, true, [], [], ["m"], []⟩).2
      = ⟨false, true, [], ["click(3, 4)"], ["m"], []⟩
    ∧ (remember (.str "x") ⟨false, true, [], [], ["m"], []⟩).2
      = ⟨false, true, [], ["remember(\"x\")"], ["m", "x"], []⟩
    ∧ (recall' ⟨false, true, [], [], ["m"], []⟩).2
      = ⟨false, true, [], [], ["m"], []⟩ := by
  have h1 := (disabled_execution_effects ⟨false, true, [], [], ["m"], []⟩ rfl).1
    (.int 3) (.int 4) 3 4 (by decide) (by decide)
  have h2 := (disabled_execution_effects ⟨false, true, [], [], ["m"], []⟩ rfl).2.2.2.2.2.1 "x"
  have h3 := (disabled_execution_effects ⟨false, true, [], [], ["m"], []⟩ rfl).2.2.2.2.2.2
  refine ⟨?_, ?_, ?_⟩
  · rw [h1]; decide
  · rw [h2]; decide
  · exact h3

/-- Mapping construction and deconstruction of strings over a list of
character lists is the identity. -/
theorem map_mk_toList (l : List (List Char)) :
    (l.map String.mk).map String.toList = l := by
  induction l with
  | nil => rfl
  | cons a t ih => simp [ih]

/-- Membership in the abstracted extractor's output characterized
through the candidate lines and the per-line filter, for every host
parser. -/
theorem extractWith_mem_iff (astParse : List Char → Option AstExpr) (raw : String)
    (cl : List Char) :
    cl ∈ (extractWith astParse raw).map String.toList
      ↔ cl ∈ candidateLines raw.toList ∧ lineExecutableWith astParse cl = true := by
  rw [show (extractWith astParse raw).map String.toList
      = (candidateLines raw.toList).filter (lineExecutableWith astParse)
      from map_mk_toList _]
  exact List.mem_filter

/-- The filter accepts a line exactly when the host parser returns a
call whose callee is a whitelisted bare name or a whitelisted final
attribute — in particular the parse result's arguments are never
consulted (the modelled `AstExpr` does not even carry them, because the
source reads only `tree.body.func`). -/
theorem lineExecutableWith_iff (astParse : List Char → Option AstExpr) (cl : List Char) :
    lineExecutableWith astParse cl = true
      ↔ (∃ s, astParse cl = some (.call (.name s)) ∧ TOOL_NAMES.contains s = true)
        ∨ (∃ s, astParse cl = some (.call (.attr s)) ∧ TOOL_NAMES.contains s = true) := by
  unfold lineExecutableWith
  rcases hp : astParse cl with _ | ast
  · simp
  · rcases ast with f | _
    · rcases f with s | s | _ <;> simp
    · simp

/-- C5: for every behaviour of the host parser (hence for CPython's
`ast.parse`, whose raised `SyntaxError` is exactly the failure case the
filter consumes) and every input text, extraction is a total function
returning a list of strings; every returned line was parsed by the host
parser as a call targeting a whitelisted operation, and every line the
filter rejects — failing to parse, parsing to a non-call, or targeting a
non-whitelisted callee — is silently absent from the output. -/
theorem extract_total_and_silent (astParse : List Char → Option AstExpr) (raw : String) :
    (∀ l ∈ extractWith astParse raw,
        lineExecutableWith astParse l.toList = true
        ∧ ∃ f, astParse l.toList = some (.call f))
    ∧ (∀ l : String, lineExecutableWith astParse l.toList = false →
        l ∉ extractWith astParse raw) := by
  constructor
  · intro l hl
    have hmem : l.toList ∈ (extractWith astParse raw).map String.toList :=
      List.mem_map_of_mem _ hl
    have h := (extractWith_mem_iff astParse raw l.toList).mp hmem
    refine ⟨h.2, ?_⟩
    have h2 := h.2
    rw [lineExecutableWith_iff astParse l.toList] at h2
    rcases h2 with ⟨s, hs, _⟩ | ⟨s, hs, _⟩
    · exact ⟨.name s, hs⟩
    · exact ⟨.attr s, hs⟩
  · intro l hfalse hl
    have hmem : l.toList ∈ (extractWith astParse raw).map String.toList :=
      List.mem_map_of_mem _ hl
    have h := (extractWith_mem_iff astParse raw l.toList).mp hmem
    rw [hfalse] at h
    exact Bool.false_ne_true h.2

/-- Witness for `extract_total_and_silent`, at the oracle `witnessAst`
which matches CPython on the two lines exercised: `click(007)` is a
`SyntaxError` (leading zeros) and is silently absent, while
`click(1.5, 2)` — whose arguments are no literal integers — parses as a
call of `click` and passes the filter. -/
theorem extract_total_and_silent_witness :
    "click(007)" ∉ extractWith witnessAst "click(007)\nclick(1.5, 2)"
    ∧ lineExecutableWith witnessAst "click(1.5, 2)".toList = true :=
  ⟨(extract_total_and_silent witnessAst "click(007)\nclick(1.5, 2)").2
      "click(007)" (by decide),
   ((extract_total_and_silent witnessAst "click(007)\nclick(1.5, 2)").1
      "click(1.5, 2)" (by decide)).1⟩

/-- The loop body of the cursor update, expressed through the endpoint of
the line's pointer-moving invocation. -/
theorem cursorStep_eq (st : CursorState) (line : String) :
    cursorStep st line
      = match pointerEndpoint line with
        | some p => { st with last_x := some p.1, last_y := some p.2 }
        | Option.none => st := by
  unfold cursorStep pointerEndpoint
  rcases hpa : parse_action_coords line with ⟨name, args⟩
  split <;> rfl

/-- Folding the cursor step never touches the `prev_*` fields. -/
theorem cursor_foldl_prev (actions : List String) :
    ∀ st : CursorState,
      (actions.foldl cursorStep st).prev_x = st.prev_x
      ∧ (actions.foldl cursorStep st).prev_y = st.prev_y := by
  induction actions with
  | nil => exact fun st => ⟨rfl, rfl⟩
  | cons a rest ih =>
    intro st
    have hstep : (cursorStep st a).prev_x = st.prev_x
        ∧ (cursorStep st a).prev_y = st.prev_y := by
      rw [cursorStep_eq]
      cases pointerEndpoint a <;> simp
    rw [List.foldl_cons]
    exact ⟨(ih _).1.trans hstep.1, (ih _).2.trans hstep.2⟩

/-- Folding the cursor step leaves `last_*` at the endpoint of the last
pointer-moving invocation, or unchanged when there is none. -/
theorem cursor_foldl_last (actions : List String) :
    ∀ st : CursorState,
      ((actions.foldl cursorStep st).last_x, (actions.foldl cursorStep st).last_y)
        = match lastEndpoint actions with
          | some p => (some p.1, some p.2)
          | Option.none => (st.last_x, st.last_y) := by
  induction actions with
  | nil => exact fun st => rfl
  | cons a rest ih =>
    intro st
    rw [List.foldl_cons, ih (cursorStep st a), cursorStep_eq]
    cases hpe : pointerEndpoint a with
    | none =>
      have hle : lastEndpoint (a :: rest) = lastEndpoint rest := by
        unfold lastEndpoint
        rw [List.filterMap_cons, hpe]
      rw [hle]
    | some p =>
      cases hfm : rest.filterMap pointerEndpoint with
      | nil =>
        have hr : lastEndpoint rest = Option.none := by
          unfold lastEndpoint; rw [hfm]; rfl
        have hle : lastEndpoint (a :: rest) = some p := by
          unfold lastEndpoint
          rw [List.filterMap_cons, hpe, hfm]
          rfl
        rw [hr, hle]
      | cons q qs =>
        have hr : lastEndpoint rest = (q :: qs).getLast? := by
          unfold lastEndpoint; rw [hfm]
        have hle : lastEndpoint (a :: rest) = (q :: qs).getLast? := by
          unfold lastEndpoint
          rw [List.filterMap_cons, hpe, hfm, List.getLast?_cons_cons]
        rw [hr, hle]
        rcases hgl : (q :: qs).getLast? with _ | r
        · simp at hgl
        · rfl

/-- C7: for every prior cursor state and every turn's action list, after
the update `prev_x`/`prev_y` equal the prior `last_x`/`last_y`, and
`last_x`/`last_y` equal the endpoint of the turn's last pointer-moving
invocation — `(x, y)` of the last click/right-click/double-click or
`(x2, y2)` of the last drag — and keep their prior values when the turn
contains no pointer-moving invocation. -/
theorem update_cursor_state_spec (actions : List String) (st : CursorState) :
    (update_cursor_state actions st).prev_x = st.last_x
    ∧ (update_cursor_state actions st).prev_y = st.last_y
    ∧ (lastEndpoint actions = Option.none →
        (update_cursor_state actions st).last_x = st.last_x
        ∧ (update_cursor_state actions st).last_y = st.last_y)
    ∧ (∀ p, lastEndpoint actions = some p →
        (update_cursor_state actions st).last_x = some p.1
        ∧ (update_cursor_state actions st).last_y = some p.2) := by
  unfold update_cursor_state
  have hprev := cursor_foldl_prev actions { st with prev_x := st.last_x, prev_y := st.last_y }
  have hlast := cursor_foldl_last actions { st with prev_x := st.last_x, prev_y := st.last_y }
  refine ⟨hprev.1, hprev.2, ?_, ?_⟩
  · intro h
    rw [h] at hlast
    exact ⟨congrArg Prod.fst hlast, congrArg Prod.snd hlast⟩
  · intro p h
    rw [h] at hlast
    exact ⟨congrArg Prod.fst hlast, congrArg Prod.snd hlast⟩

/-- Adequate fuel makes the digit helper independent of the exact fuel. -/
theorem natDigitsAux_eq (n : ℕ) : ∀ f, n < f → natDigitsAux f n = natDigits n := by
  induction n using Nat.strong_induction_on with
  | _ n ih =>
    intro f hf
    match f, hf with
    | f' + 1, _ =>
      by_cases h : n < 10
      · simp [natDigits, natDigitsAux, h]
      · have hd : n / 10 < n := Nat.div_lt_self (by omega) (by omega)
        have e1 : natDigitsAux (f' + 1) n
            = natDigitsAux f' (n / 10) ++ [digitChar (n % 10)] := by
          simp [natDigitsAux, h]
        have e2 : natDigits n = natDigitsAux n (n / 10) ++ [digitChar (n % 10)] := by
          simp [natDigits, natDigitsAux, h]
        rw [e1, e2, ih _ hd f' (by omega), ih _ hd n (by omega)]

/-- The recursive unfolding of `natDigits`. -/
theorem natDigits_unfold (n : ℕ) :
    natDigits n = if n < 10 then [digitChar n]
      else natDigits (n / 10) ++ [digitChar (n % 10)] := by
  by_cases h : n < 10
  · simp [natDigits, natDigitsAux, h]
  · have hd : n / 10 < n := Nat.div_lt_self (by omega) (by omega)
    rw [if_neg h]
    have e2 : natDigits n = natDigitsAux n (n / 10) ++ [digitChar (n % 10)] := by
      simp [natDigits, natDigitsAux, h]
    rw [e2, natDigitsAux_eq _ n hd]

/-- Digit characters are digits. -/
theorem digitChar_isDigit (d : ℕ) (hd : d < 10) : (digitChar d).isDigit = true := by
  interval_cases d <;> decide

/-- The numeric value of a digit character. -/
theorem digitChar_toNat (d : ℕ) (hd : d < 10) : (digitChar d).toNat = 48 + d := by
  interval_cases d <;> decide

/-- Every character of a printed natural number is a digit. -/
theorem natDigits_all_digit (n : ℕ) : ∀ c ∈ natDigits n, c.isDigit = true := by
  induction n using Nat.strong_induction_on with
  | _ n ih =>
    intro c hc
    rw [natDigits_unfold] at hc
    by_cases h : n < 10
    · rw [if_pos h] at hc
      rcases List.mem_singleton.mp hc with rfl
      exact digitChar_isDigit n h
    · rw [if_neg h] at hc
      rcases List.mem_append.mp hc with h1 | h2
      · exact ih _ (Nat.div_lt_self (by omega) (by omega)) c h1
      · rcases List.mem_singleton.mp h2 with rfl
        exact digitChar_isDigit _ (Nat.mod_lt _ (by omega))

/-- A printed natural number is never the empty string. -/
theorem natDigits_ne_nil (n : ℕ) : natDigits n ≠ [] := by
  rw [natDigits_unfold]
  by_cases h : n < 10 <;> simp [h]

/-- Appending one more digit multiplies the parsed value by ten. -/
theorem digitsToNat_append (l : List Char) (c : Char) :
    digitsToNat (l ++ [c]) = 10 * digitsToNat l + (c.toNat - 48) := by
  unfold digitsToNat
  rw [List.foldl_append]
  rfl

/-- Parsing the printed digits of a natural number recovers it. -/
theorem digitsToNat_natDigits (n : ℕ) : digitsToNat (natDigits n) = n := by
  induction n using Nat.strong_induction_on with
  | _ n ih =>
    rw [natDigits_unfold]
    by_cases h : n < 10
    · rw [if_pos h]
      show 10 * 0 + ((digitChar n).toNat - 48) = n
      rw [digitChar_toNat n h]
      omega
    · rw [if_neg h, digitsToNat_append,
        ih _ (Nat.div_lt_self (by omega) (by omega)),
        digitChar_toNat _ (Nat.mod_lt _ (by omega))]
      omega

/-- `takeWhile` runs through a satisfying prefix and stops at a failing
head. -/
theorem takeWhile_append_stop (p : Char → Bool) (l1 : List Char) (c : Char)
    (l2 : List Char) (h1 : ∀ x ∈ l1, p x = true) (hc : p c = false) :
    (l1 ++ c :: l2).takeWhile p = l1 ∧ (l1 ++ c :: l2).dropWhile p = c :: l2 := by
  induction l1 with
  | nil => simp [List.takeWhile_cons, List.dropWhile_cons, hc]
  | cons a t ih =>
    have ha : p a = true := h1 a (List.mem_cons_self a t)
    have := ih fun x hx => h1 x (List.mem_cons_of_mem a hx)
    simp [List.takeWhile_cons, List.dropWhile_cons, ha, this]

/-- `skipWs` is the identity on text not starting with a space or tab. -/
theorem skipWs_id (l : List Char)
    (h : ∀ c, l.head? = some c → (c = ' ' || c = '\t') = false) :
    skipWs l = l := by
  cases l with
  | nil => rfl
  | cons c rest =>
    have := h c rfl
    simp [skipWs, this]

/-- A digit character is none of the structural characters of the
invocation grammar. -/
theorem isDigit_ne (c : Char) (h : c.isDigit = true) :
    c ≠ ' ' ∧ c ≠ '\t' ∧ c ≠ ')' ∧ c ≠ ',' ∧ c ≠ '(' ∧ c ≠ '.' := by
  refine ⟨?_, ?_, ?_, ?_, ?_, ?_⟩ <;>
    (intro heq; subst heq; exact absurd h (by decide))

/-- The argument tail starts with a comma or the closing parenthesis. -/
theorem argsTail_head (ns : List ℕ) :
    ∃ c l', argsTailChars ns = c :: l'
      ∧ c.isDigit = false ∧ (c = ',' ∨ c = ')') := by
  cases ns with
  | nil => exact ⟨')', [], rfl, by decide, Or.inr rfl⟩
  | cons n ns' => exact ⟨',', _, rfl, by decide, Or.inl rfl⟩

/-- The argument tail is at least as long as its block count. -/
theorem argsTail_length (ns : List ℕ) : ns.length ≤ (argsTailChars ns).length := by
  induction ns with
  | nil => simp [argsTailChars]
  | cons n ns' ih => simp [argsTailChars]; omega

/-- Reading one argument from printed digits followed by a non-digit. -/
theorem takeArg_digits (m : ℕ) (c : Char) (l : List Char) (hc : c.isDigit = false) :
    takeArg (natDigits m ++ c :: l) = some (.intLit (m : ℤ), c :: l) := by
  rcases hds : natDigits m with _ | ⟨d, ds⟩
  · exact absurd hds (natDigits_ne_nil m)
  · have hall : ∀ x ∈ d :: ds, x.isDigit = true := by
      rw [← hds]; exact natDigits_all_digit m
    have hd : d.isDigit = true := hall d (List.mem_cons_self d ds)
    have htw := takeWhile_append_stop Char.isDigit (d :: ds) c l hall hc
    simp only [List.cons_append] at htw ⊢
    simp only [takeArg]
    rw [if_pos hd, htw.1, htw.2, ← hds, digitsToNat_natDigits]

/-- Reading the comma-separated argument tail: each block contributes one
integer literal, ending at the closing parenthesis with nothing left. -/
theorem takeArgsRest_blocks (ns : List ℕ) :
    ∀ (acc : List PyArg) (fuel : ℕ), ns.length < fuel →
      takeArgsRest fuel (argsTailChars ns) acc
        = some (acc ++ ns.map (fun n => .intLit (n : ℤ)), []) := by
  induction ns with
  | nil =>
    intro acc fuel hf
    obtain ⟨f, rfl⟩ : ∃ f, fuel = f + 1 := ⟨fuel - 1, by omega⟩
    · show takeArgsRest (f + 1) [')'] acc = _
      simp only [takeArgsRest]
      rw [skipWs_id [')'] (by intro c hc; cases hc; decide)]
      simp
  | cons n ns' ih =>
    intro acc fuel hf
    obtain ⟨f, rfl⟩ : ∃ f, fuel = f + 1 := ⟨fuel - 1, by omega⟩
    · rcases hnd : natDigits n with _ | ⟨d, ds⟩
      · exact absurd hnd (natDigits_ne_nil n)
      have hd : d.isDigit = true :=
        natDigits_all_digit n d (by rw [hnd]; exact List.mem_cons_self d ds)
      show takeArgsRest (f + 1) (',' :: ' ' :: (natDigits n ++ argsTailChars ns')) acc = _
      simp only [takeArgsRest]
      rw [skipWs_id _ (by intro c hc; cases hc; decide)]
      try dsimp only
      rw [if_neg (by decide), if_pos rfl]
      have hskip : skipWs (' ' :: (natDigits n ++ argsTailChars ns'))
          = natDigits n ++ argsTailChars ns' := by
        have h1 : skipWs (' ' :: (natDigits n ++ argsTailChars ns'))
            = skipWs (natDigits n ++ argsTailChars ns') := by
          simp [skipWs]
        rw [h1]
        apply skipWs_id
        intro c hc
        rw [hnd] at hc
        cases hc
        have := isDigit_ne d hd
        simp [this.1, this.2.1]
      rw [hskip, hnd]
      simp only [List.cons_append]
      try dsimp only
      rw [if_neg (by
        intro heq
        subst heq
        exact absurd hd (by decide))]
      simp only [← List.cons_append, ← hnd]
      obtain ⟨c0, l0, htail, hc0digit, hc0⟩ := argsTail_head ns'
      rw [htail, takeArg_digits n c0 l0 hc0digit, ← htail]
      try dsimp only
      rw [ih (acc ++ [PyArg.intLit (n : ℤ)]) f (by simp at hf ⊢; omega)]
      simp

/-- Reading an identifier from a line starting with an identifier
character. -/
theorem takeIdent_pos (c : Char) (rest : List Char) (h : isIdentStart c = true) :
    takeIdent (c :: rest)
      = some (String.mk (c :: rest.takeWhile isIdentChar), rest.dropWhile isIdentChar) := by
  simp [takeIdent, h]

/-- The dotted-reference reader stops at a non-dot character. -/
theorem takeDottedRest_stop (fuel : ℕ) (c : Char) (rest : List Char)
    (acc : List String) (hc : (c = '.') = false) :
    takeDottedRest (fuel + 1) (c :: rest) acc = some (acc, c :: rest) := by
  simp [takeDottedRest, hc]

/-- Parsing a canonical invocation line: an identifier head, an opening
parenthesis, printed digits, then comma-separated digit blocks up to the
closing parenthesis, recovering the callee name and the integer
arguments. -/
theorem parseCallOfLine_canon (d0 : Char) (nm : List Char)
    (hd0 : isIdentStart d0 = true) (hd0ws : (d0 = ' ' || d0 = '\t') = false)
    (hnm : ∀ c ∈ nm, isIdentChar c = true) (m : ℕ) (ns : List ℕ) :
    parseCallOfLine (d0 :: (nm ++ '(' :: (natDigits m ++ argsTailChars ns)))
      = some (.bare (String.mk (d0 :: nm)),
              .intLit (m : ℤ) :: ns.map fun n => .intLit (n : ℤ)) := by
  unfold parseCallOfLine
  rw [skipWs_id (d0 :: (nm ++ '(' :: (natDigits m ++ argsTailChars ns)))
    (by intro c hc; cases hc; exact hd0ws)]
  rw [takeIdent_pos d0 (nm ++ '(' :: (natDigits m ++ argsTailChars ns)) hd0]
  have htw := takeWhile_append_stop isIdentChar nm '('
    (natDigits m ++ argsTailChars ns) hnm (by decide)
  rw [htw.1, htw.2]
  dsimp only
  rw [List.length_cons]
  rw [takeDottedRest_stop ((natDigits m ++ argsTailChars ns).length + 1) '('
    (natDigits m ++ argsTailChars ns) [String.mk (d0 :: nm)] (by decide)]
  dsimp only
  rw [skipWs_id ('(' :: (natDigits m ++ argsTailChars ns))
    (by intro c hc; cases hc; decide)]
  dsimp only
  rw [if_pos rfl]
  rcases hnd : natDigits m with _ | ⟨d, ds⟩
  · exact absurd hnd (natDigits_ne_nil m)
  have hd : d.isDigit = true :=
    natDigits_all_digit m d (by rw [hnd]; exact List.mem_cons_self d ds)
  have hdne := isDigit_ne d hd
  simp only [List.cons_append]
  rw [skipWs_id (d :: (ds ++ argsTailChars ns))
    (by intro c hc; cases hc; simp [hdne.1, hdne.2.1])]
  dsimp only
  rw [if_neg hdne.2.2.1]
  simp only [← List.cons_append, ← hnd]
  obtain ⟨c0, l0, htail, hc0digit, hc0⟩ := argsTail_head ns
  rw [htail, takeArg_digits m c0 l0 hc0digit]
  dsimp only
  rw [← htail]
  rw [takeArgsRest_blocks ns [PyArg.intLit (m : ℤ)]
    ((argsTailChars ns).length + 1)
    (by have := argsTail_length ns; omega)]
  dsimp only
  rw [show skipWs [] = [] from rfl]
  simp

/-- Characters of canonical invocation strings are never line breaks or
backticks, so canonical strings survive splitting, stripping and fence
scanning untouched. -/
theorem canonChar_facts (c : Char) (h : okChar c = true) :
    c ≠ '\n' ∧ c ≠ '\r' ∧ c ≠ tickCh := by
  refine ⟨?_, ?_, ?_⟩ <;> (intro heq; subst heq; exact absurd h (by decide))

/-- A digit is an acceptable canonical character. -/
theorem isDigit_okChar (c : Char) (h : c.isDigit = true) : okChar c = true := by
  simp [okChar, h]

/-- Every character of an argument tail is an acceptable canonical
character. -/
theorem argsTail_ok (ns : List ℕ) : ∀ c ∈ argsTailChars ns, okChar c = true := by
  induction ns with
  | nil =>
    intro c hc
    rcases List.mem_singleton.mp hc with rfl
    decide
  | cons n ns' ih =>
    intro c hc
    rcases List.mem_cons.mp hc with rfl | hc
    · decide
    rcases List.mem_cons.mp hc with rfl | hc
    · decide
    rcases List.mem_append.mp hc with hc | hc
    · exact isDigit_okChar c (natDigits_all_digit n c hc)
    · exact ih c hc

/-- The argument tail always ends with the closing parenthesis. -/
theorem argsTail_ends (ns : List ℕ) : ∃ pre, argsTailChars ns = pre ++ [')'] := by
  induction ns with
  | nil => exact ⟨[], rfl⟩
  | cons n ns' ih =>
    obtain ⟨pre, hpre⟩ := ih
    exact ⟨',' :: ' ' :: (natDigits n ++ pre), by simp [argsTailChars, hpre]⟩

/-- `normNl` is the identity on carriage-return-free text. -/
theorem normNl_id (l : List Char) (h : ∀ c ∈ l, c ≠ '\r') : normNl l = l := by
  induction l with
  | nil => rfl
  | cons c rest ih =>
    have hc : ¬ c = '\r' := h c (List.mem_cons_self c rest)
    have ih' := ih fun x hx => h x (List.mem_cons_of_mem c hx)
    cases rest with
    | nil => simp [normNl, hc]
    | cons d rest' => simp [normNl, hc, ih']

/-- Splitting newline-free text yields the accumulated single line. -/
theorem splitNlAux_single (l : List Char) :
    ∀ acc, (∀ c ∈ l, c ≠ '\n') → splitNlAux l acc = [acc.reverse ++ l] := by
  induction l with
  | nil => intro acc _; simp [splitNlAux]
  | cons c rest ih =>
    intro acc h
    have hc : ¬ c = '\n' := h c (List.mem_cons_self c rest)
    have hstep : splitNlAux (c :: rest) acc = splitNlAux rest (c :: acc) := by
      simp [splitNlAux, hc]
    rw [hstep, ih (c :: acc) fun x hx => h x (List.mem_cons_of_mem c hx)]
    simp

/-- `str.splitlines` of a non-empty single-line text is that text. -/
theorem pySplitlines_single (l : List Char) (hne : l ≠ [])
    (h : ∀ c ∈ l, c ≠ '\n' ∧ c ≠ '\r') : pySplitlines l = [l] := by
  unfold pySplitlines
  cases l with
  | nil => exact absurd rfl hne
  | cons c rest =>
    rw [normNl_id _ fun x hx => (h x hx).2,
      splitNlAux_single _ [] fun x hx => (h x hx).1]
    rfl

/-- `dropWhile` is the identity when the head fails the predicate. -/
theorem dropWhile_id (p : Char → Bool) (l : List Char)
    (h : ∀ c, l.head? = some c → p c = false) : l.dropWhile p = l := by
  cases l with
  | nil => rfl
  | cons c rest => simp [List.dropWhile_cons, h c rfl]

/-- `str.strip` is the identity when neither end is whitespace. -/
theorem pyStrip_id (l : List Char)
    (hhead : ∀ c, l.head? = some c → isPyWs c = false)
    (hlast : ∀ c, l.reverse.head? = some c → isPyWs c = false) :
    pyStrip l = l := by
  unfold pyStrip
  rw [dropWhile_id _ l hhead, dropWhile_id _ l.reverse hlast, List.reverse_reverse]

/-- The fence scanner finds nothing in backtick-free text. -/
theorem findFencesAux_none : ∀ (fuel : ℕ) (l : List Char), tickCh ∉ l →
    findFencesAux fuel l = [] := by
  intro fuel
  induction fuel with
  | zero => intro l _; rfl
  | succ f ih =>
    intro l h
    cases l with
    | nil => rfl
    | cons c rest =>
      have hc : ¬ c = tickCh := fun heq => h (heq ▸ List.mem_cons_self c rest)
      rw [findFencesAux]
      rw [if_neg (by simp [hc])]
      exact ih rest fun hm => h (List.mem_cons_of_mem c hm)

/-- `findFences` finds nothing in backtick-free text. -/
theorem findFences_none (l : List Char) (h : tickCh ∉ l) : findFences l = [] :=
  findFencesAux_none (l.length + 1) l h

/-- The candidate lines of a clean single-line text are that line alone. -/
theorem candidateLines_single (l : List Char) (hne : l ≠ [])
    (htick : tickCh ∉ l) (hnlcr : ∀ c ∈ l, c ≠ '\n' ∧ c ≠ '\r')
    (hstrip : pyStrip l = l) :
    candidateLines l = [l] := by
  unfold candidateLines
  rw [findFences_none l htick]
  show List.foldl addLines [] [l] = [l]
  rw [List.foldl_cons, List.foldl_nil]
  unfold addLines
  rw [pySplitlines_single l hne hnlcr, List.foldl_cons, List.foldl_nil, hstrip]
  have : l.isEmpty = false := by
    cases l with
    | nil => exact absurd rfl hne
    | cons c rest => rfl
  simp [this]

/-- Extracting from a clean, whitelisted single-line text returns exactly
that line. -/
theorem extract_single (s : String) (hne : s.toList ≠ [])
    (htick : tickCh ∉ s.toList)
    (hnlcr : ∀ c ∈ s.toList, c ≠ '\n' ∧ c ≠ '\r')
    (hstrip : pyStrip s.toList = s.toList)
    (hexe : line_is_executable s.toList = true) :
    extract_executable_lines s = [s] := by
  unfold extract_executable_lines
  rw [candidateLines_single s.toList hne htick hnlcr hstrip]
  have hf : List.filter line_is_executable [s.toList] = [s.toList] := by
    simp
    exact hexe
  rw [hf]
  rfl

/-- Character-level shape of `canonClick`. -/
theorem canonClick_toList (x y : ℤ) (hx : 0 ≤ x) (hy : 0 ≤ y) :
    (canonClick x y).toList
      = 'c' :: ("lick".toList ++ '(' :: (natDigits x.toNat ++ argsTailChars [y.toNat])) := by
  unfold canonClick intStr
  rw [if_neg (by omega), if_neg (by omega)]
  show (_ ++ String.mk (natDigits x.toNat) ++ _ ++ String.mk (natDigits y.toNat) ++ _).data = _
  simp only [String.data_append, argsTailChars, List.append_assoc]
  rfl

/-- Character-level shape of `canonRightClick`. -/
theorem canonRightClick_toList (x y : ℤ) (hx : 0 ≤ x) (hy : 0 ≤ y) :
    (canonRightClick x y).toList
      = 'r' :: ("ight_click".toList
          ++ '(' :: (natDigits x.toNat ++ argsTailChars [y.toNat])) := by
  unfold canonRightClick intStr
  rw [if_neg (by omega), if_neg (by omega)]
  show (_ ++ String.mk (natDigits x.toNat) ++ _ ++ String.mk (natDigits y.toNat) ++ _).data = _
  simp only [String.data_append, argsTailChars, List.append_assoc]
  rfl

/-- Character-level shape of `canonDoubleClick`. -/
theorem canonDoubleClick_toList (x y : ℤ) (hx : 0 ≤ x) (hy : 0 ≤ y) :
    (canonDoubleClick x y).toList
      = 'd' :: ("ouble_click".toList
          ++ '(' :: (natDigits x.toNat ++ argsTailChars [y.toNat])) := by
  unfold canonDoubleClick intStr
  rw [if_neg (by omega), if_neg (by omega)]
  show (_ ++ String.mk (natDigits x.toNat) ++ _ ++ String.mk (natDigits y.toNat) ++ _).data = _
  simp only [String.data_append, argsTailChars, List.append_assoc]
  rfl

/-- Character-level shape of `canonDrag`. -/
theorem canonDrag_toList (x y u v : ℤ)
    (hx : 0 ≤ x) (hy : 0 ≤ y) (hu : 0 ≤ u) (hv : 0 ≤ v) :
    (canonDrag x y u v).toList
      = 'd' :: ("rag".toList
          ++ '(' :: (natDigits x.toNat ++ argsTailChars [y.toNat, u.toNat, v.toNat])) := by
  unfold canonDrag intStr
  rw [if_neg (by omega), if_neg (by omega), if_neg (by omega), if_neg (by omega)]
  show (_ ++ String.mk (natDigits x.toNat) ++ _ ++ String.mk (natDigits y.toNat)
      ++ _ ++ String.mk (natDigits u.toNat) ++ _ ++ String.mk (natDigits v.toNat)
      ++ _).data = _
  simp only [String.data_append, argsTailChars, List.append_assoc]
  rfl

/-- A canonical invocation string is free of line breaks, backticks and
boundary whitespace, so the extractor's text handling leaves it alone. -/
theorem canonShape_clean (d0 : Char) (nm : List Char) (m : ℕ) (ns : List ℕ)
    (hok : ∀ c ∈ d0 :: nm, okChar c = true) (hd0ws : isPyWs d0 = false) :
    tickCh ∉ d0 :: (nm ++ '(' :: (natDigits m ++ argsTailChars ns))
    ∧ (∀ c ∈ d0 :: (nm ++ '(' :: (natDigits m ++ argsTailChars ns)),
        c ≠ '\n' ∧ c ≠ '\r')
    ∧ pyStrip (d0 :: (nm ++ '(' :: (natDigits m ++ argsTailChars ns)))
        = d0 :: (nm ++ '(' :: (natDigits m ++ argsTailChars ns)) := by
  have hall : ∀ c ∈ d0 :: (nm ++ '(' :: (natDigits m ++ argsTailChars ns)),
      okChar c = true := by
    intro c hc
    rcases List.mem_cons.mp hc with rfl | hc
    · exact hok c (List.mem_cons_self c nm)
    rcases List.mem_append.mp hc with hc | hc
    · exact hok c (List.mem_cons_of_mem d0 hc)
    rcases List.mem_cons.mp hc with rfl | hc
    · decide
    rcases List.mem_append.mp hc with hc | hc
    · exact isDigit_okChar c (natDigits_all_digit m c hc)
    · exact argsTail_ok ns c hc
  refine ⟨?_, ?_, ?_⟩
  · intro hmem
    exact (canonChar_facts tickCh (hall tickCh hmem)).2.2 rfl
  · intro c hc
    exact ⟨(canonChar_facts c (hall c hc)).1, (canonChar_facts c (hall c hc)).2.1⟩
  · apply pyStrip_id
    · intro c hc
      cases hc
      exact hd0ws
    · obtain ⟨pre, hpre⟩ := argsTail_ends ns
      have hL : d0 :: (nm ++ '(' :: (natDigits m ++ argsTailChars ns))
          = (d0 :: (nm ++ '(' :: (natDigits m ++ pre))) ++ [')'] := by
        simp [hpre]
      intro c hc
      rw [hL, List.reverse_append] at hc
      cases hc
      decide

/-- C2: round-trip.  For every accepted pointer invocation, the canonical
string form it is rewritten to is recognized by the extractor as a valid
invocation line (and is returned verbatim as the only extracted line),
and converting that line through the mark builder yields a Mark of the
same kind with the same coordinates; moreover an in-range integer click
is recorded under exactly this canonical form. -/
theorem canonical_roundtrip (x y u v : ℤ)
    (hx : 0 ≤ x) (hy : 0 ≤ y) (hu : 0 ≤ u) (hv : 0 ≤ v) :
    extract_executable_lines (canonClick x y) = [canonClick x y]
    ∧ actions_to_marks [canonClick x y] = [.click x y]
    ∧ extract_executable_lines (canonRightClick x y) = [canonRightClick x y]
    ∧ actions_to_marks [canonRightClick x y] = [.right_click x y]
    ∧ extract_executable_lines (canonDoubleClick x y) = [canonDoubleClick x y]
    ∧ actions_to_marks [canonDoubleClick x y] = [.double_click x y]
    ∧ extract_executable_lines (canonDrag x y u v) = [canonDrag x y u v]
    ∧ actions_to_marks [canonDrag x y u v] = [.drag x y u v]
    ∧ (∀ s : ToolState, s.execute = true → x ≤ 1000 → y ≤ 1000 →
        (click (.int x) (.int y) s).2.executed = s.executed ++ [canonClick x y]) := by
  have hC := canonClick_toList x y hx hy
  have hR := canonRightClick_toList x y hx hy
  have hD := canonDoubleClick_toList x y hx hy
  have hG := canonDrag_toList x y u v hx hy hu hv
  have cleanC := canonShape_clean 'c' "lick".toList x.toNat [y.toNat] (by decide) (by decide)
  have cleanR := canonShape_clean 'r' "ight_click".toList x.toNat [y.toNat] (by decide) (by decide)
  have cleanD := canonShape_clean 'd' "ouble_click".toList x.toNat [y.toNat] (by decide) (by decide)
  have cleanG := canonShape_clean 'd' "rag".toList x.toNat [y.toNat, u.toNat, v.toNat]
    (by decide) (by decide)
  have hpC := parseCallOfLine_canon 'c' "lick".toList (by decide) (by decide) (by decide)
    x.toNat [y.toNat]
  have hpR := parseCallOfLine_canon 'r' "ight_click".toList (by decide) (by decide) (by decide)
    x.toNat [y.toNat]
  have hpD := parseCallOfLine_canon 'd' "ouble_click".toList (by decide) (by decide) (by decide)
    x.toNat [y.toNat]
  have hpG := parseCallOfLine_canon 'd' "rag".toList (by decide) (by decide) (by decide)
    x.toNat [y.toNat, u.toNat, v.toNat]
  have hxx : (x.toNat : ℤ) = x := Int.toNat_of_nonneg hx
  have hyy : (y.toNat : ℤ) = y := Int.toNat_of_nonneg hy
  have huu : (u.toNat : ℤ) = u := Int.toNat_of_nonneg hu
  have hvv : (v.toNat : ℤ) = v := Int.toNat_of_nonneg hv
  have hexC : line_is_executable (canonClick x y).toList = true := by
    unfold line_is_executable
    rw [hC, hpC]
    rfl
  have hexR : line_is_executable (canonRightClick x y).toList = true := by
    unfold line_is_executable
    rw [hR, hpR]
    rfl
  have hexD : line_is_executable (canonDoubleClick x y).toList = true := by
    unfold line_is_executable
    rw [hD, hpD]
    rfl
  have hexG : line_is_executable (canonDrag x y u v).toList = true := by
    unfold line_is_executable
    rw [hG, hpG]
    rfl
  have hpacC : parse_action_coords (canonClick x y) = ("click", [x, y]) := by
    unfold parse_action_coords
    rw [hC, cleanC.2.2, hpC]
    simp [hxx, hyy]
  have hpacR : parse_action_coords (canonRightClick x y) = ("right_click", [x, y]) := by
    unfold parse_action_coords
    rw [hR, cleanR.2.2, hpR]
    simp [hxx, hyy]
  have hpacD : parse_action_coords (canonDoubleClick x y) = ("double_click", [x, y]) := by
    unfold parse_action_coords
    rw [hD, cleanD.2.2, hpD]
    simp [hxx, hyy]
  have hpacG : parse_action_coords (canonDrag x y u v) = ("drag", [x, y, u, v]) := by
    unfold parse_action_coords
    rw [hG, cleanG.2.2, hpG]
    simp [hxx, hyy, huu, hvv]
  refine ⟨?_, ?_, ?_, ?_, ?_, ?_, ?_, ?_, ?_⟩
  · exact extract_single _ (by rw [hC]; simp) (by rw [hC]; exact cleanC.1)
      (by rw [hC]; exact cleanC.2.1) (by rw [hC]; exact cleanC.2.2) hexC
  · unfold actions_to_marks
    simp [hpacC]
  · exact extract_single _ (by rw [hR]; simp) (by rw [hR]; exact cleanR.1)
      (by rw [hR]; exact cleanR.2.1) (by rw [hR]; exact cleanR.2.2) hexR
  · unfold actions_to_marks
    simp [hpacR]
  · exact extract_single _ (by rw [hD]; simp) (by rw [hD]; exact cleanD.1)
      (by rw [hD]; exact cleanD.2.1) (by rw [hD]; exact cleanD.2.2) hexD
  · unfold actions_to_marks
    simp [hpacD]
  · exact extract_single _ (by rw [hG]; simp) (by rw [hG]; exact cleanG.1)
      (by rw [hG]; exact cleanG.2.1) (by rw [hG]; exact cleanG.2.2) hexG
  · unfold actions_to_marks
    simp [hpacG]
  · intro s hs hx1000 hy1000
    have hvx : validate_coord (.int x) = .ok x := by
      simp [validate_coord, PyVal.isNumber, PyVal.truncVal, PyVal.numVal, pyTrunc_intCast,
        hx, hx1000]
    have hvy : validate_coord (.int y) = .ok y := by
      simp [validate_coord, PyVal.isNumber, PyVal.truncVal, PyVal.numVal, pyTrunc_intCast,
        hy, hy1000]
    by_cases hp : s.physical <;>
      simp [click, hvx, hvy, record, hs, hp]

/-- Witness for `canonical_roundtrip`: the canonical click at the
midpoint extracts to itself and reduces to the same mark. -/
theorem canonical_roundtrip_witness :
    extract_executable_lines (canonClick 500 500) = [canonClick 500 500]
    ∧ actions_to_marks [canonClick 500 500] = [Mark.click 500 500] :=
  ⟨(canonical_roundtrip 500 500 0 0 (by decide) (by decide) (by decide) (by decide)).1,
   (canonical_roundtrip 500 500 0 0 (by decide) (by decide) (by decide) (by decide)).2.1⟩

/-- A write inside the buffer of a byte value succeeds and preserves the
buffer invariant. -/
theorem pySet_pres (n : ℕ) (buf : List ℕ) (i v : ℤ) (hbuf : ByteBuf n buf)
    (h0 : 0 ≤ i) (hi : i < (n : ℤ)) (hv0 : 0 ≤ v) (hv : v < 256) :
    ∃ buf', pySet buf i v = some buf' ∧ ByteBuf n buf' := by
  obtain ⟨hlen, hbyte⟩ := hbuf
  have hidx : i.toNat < buf.length := by omega
  refine ⟨buf.set i.toNat v.toNat, ?_, ?_, ?_⟩
  · unfold pySet
    rw [if_pos ⟨hv0, hv⟩, if_pos h0, if_pos hidx]
  · rw [List.length_set, hlen]
  · intro x hx
    rcases List.mem_or_eq_of_mem_set hx with hx | rfl
    · exact hbyte x hx
    · omega

/-- A read inside the buffer succeeds and returns a byte. -/
theorem pyGet_some (n : ℕ) (buf : List ℕ) (i : ℤ) (hbuf : ByteBuf n buf)
    (h0 : 0 ≤ i) (hi : i < (n : ℤ)) :
    ∃ d, pyGet buf i = some d ∧ d < 256 := by
  obtain ⟨hlen, hbyte⟩ := hbuf
  have hidx : i.toNat < buf.length := by omega
  refine ⟨buf.getD i.toNat 0, ?_, ?_⟩
  · unfold pyGet
    rw [if_pos h0, if_pos hidx]
  · have hmem : buf.getD i.toNat 0 ∈ buf := by
      rw [List.getD_eq_getElem?_getD, List.getElem?_eq_getElem hidx]
      exact List.getElem_mem hidx
    exact hbyte _ hmem

/-- The blended channel value is a byte whenever its inputs are. -/
theorem blendVal_bounds (a src dst : ℕ) (ha : a ≤ 255) (hs : src ≤ 255)
    (hd : dst ≤ 255) : 0 ≤ blendVal a src dst ∧ blendVal a src dst < 256 := by
  have hfa0 : (0 : ℚ) ≤ (a : ℚ) / 255 := by positivity
  have hfa1 : (a : ℚ) / 255 ≤ 1 := by
    rw [div_le_one (by norm_num)]
    exact_mod_cast ha
  have hq0 : (0 : ℚ) ≤ (src : ℚ) * ((a : ℚ) / 255) + (dst : ℚ) * (1 - (a : ℚ) / 255) := by
    have h1 : (0 : ℚ) ≤ (src : ℚ) := by positivity
    have h2 : (0 : ℚ) ≤ (dst : ℚ) := by positivity
    nlinarith
  have hq255 : (src : ℚ) * ((a : ℚ) / 255) + (dst : ℚ) * (1 - (a : ℚ) / 255) ≤ 255 := by
    have h1 : (src : ℚ) ≤ 255 := by exact_mod_cast hs
    have h2 : (dst : ℚ) ≤ 255 := by exact_mod_cast hd
    nlinarith
  unfold blendVal
  rw [pyTrunc_nonneg_eq_floor _ hq0]
  constructor
  · exact Int.floor_nonneg.mpr hq0
  · have : ⌊(src : ℚ) * ((a : ℚ) / 255) + (dst : ℚ) * (1 - (a : ℚ) / 255)⌋
        ≤ ⌊(255 : ℚ)⌋ := Int.floor_le_floor hq255
    have h255 : ⌊(255 : ℚ)⌋ = 255 := by
      rw [show (255 : ℚ) = ((255 : ℤ) : ℚ) by norm_num, Int.floor_intCast]
    omega

/-- The blended alpha value is a byte whenever its inputs are. -/
theorem alphaVal_bounds (a dst : ℕ) (ha : a ≤ 255) :
    0 ≤ alphaVal a dst ∧ alphaVal a dst < 256 := by
  have hfa1 : (a : ℚ) / 255 ≤ 1 := by
    rw [div_le_one (by norm_num)]
    exact_mod_cast ha
  have hq0 : (0 : ℚ) ≤ (a : ℚ) + (dst : ℚ) * (1 - (a : ℚ) / 255) := by
    have h1 : (0 : ℚ) ≤ (a : ℚ) := by positivity
    have h2 : (0 : ℚ) ≤ (dst : ℚ) := by positivity
    nlinarith
  unfold alphaVal
  rw [pyTrunc_nonneg_eq_floor _ hq0]
  constructor
  · exact le_min (by norm_num) (Int.floor_nonneg.mpr hq0)
  · have := min_le_left (255 : ℤ) ⌊(a : ℚ) + (dst : ℚ) * (1 - (a : ℚ) / 255)⌋
    omega

/-- The shared four-byte alpha-blend write succeeds inside the buffer and
preserves the buffer invariant. -/
theorem blendAt_pres (n : ℕ) (buf : List ℕ) (i : ℤ) (b g r a : ℕ)
    (hbuf : ByteBuf n buf) (hb : b ≤ 255) (hg : g ≤ 255) (hr : r ≤ 255)
    (ha : a ≤ 255) (h0 : 0 ≤ i) (h3 : i + 3 < (n : ℤ)) :
    ∃ buf', blendAt buf i b g r a = some buf' ∧ ByteBuf n buf' := by
  obtain ⟨d0, hg0, hd0⟩ := pyGet_some n buf i hbuf h0 (by omega)
  obtain ⟨buf1, hs1, hb1⟩ := pySet_pres n buf i (blendVal a b d0) hbuf h0 (by omega)
    (blendVal_bounds a b d0 ha hb (by omega)).1 (blendVal_bounds a b d0 ha hb (by omega)).2
  obtain ⟨d1, hg1, hd1⟩ := pyGet_some n buf1 (i + 1) hb1 (by omega) (by omega)
  obtain ⟨buf2, hs2, hb2⟩ := pySet_pres n buf1 (i + 1) (blendVal a g d1) hb1 (by omega)
    (by omega) (blendVal_bounds a g d1 ha hg (by omega)).1
    (blendVal_bounds a g d1 ha hg (by omega)).2
  obtain ⟨d2, hg2, hd2⟩ := pyGet_some n buf2 (i + 2) hb2 (by omega) (by omega)
  obtain ⟨buf3, hs3, hb3⟩ := pySet_pres n buf2 (i + 2) (blendVal a r d2) hb2 (by omega)
    (by omega) (blendVal_bounds a r d2 ha hr (by omega)).1
    (blendVal_bounds a r d2 ha hr (by omega)).2
  obtain ⟨d3, hg3, hd3⟩ := pyGet_some n buf3 (i + 3) hb3 (by omega) (by omega)
  obtain ⟨buf4, hs4, hb4⟩ := pySet_pres n buf3 (i + 3) (alphaVal a d3) hb3 (by omega)
    (by omega) (alphaVal_bounds a d3 ha).1 (alphaVal_bounds a d3 ha).2
  refine ⟨buf4, ?_, hb4⟩
  unfold blendAt
  simp [hg0, hs1, hg1, hs2, hg2, hs3, hg3, hs4]

/-- The opaque four-byte overwrite succeeds inside the buffer and
preserves the buffer invariant. -/
theorem setAt_pres (n : ℕ) (buf : List ℕ) (i : ℤ) (b g r : ℕ)
    (hbuf : ByteBuf n buf) (hb : b ≤ 255) (hg : g ≤ 255) (hr : r ≤ 255)
    (h0 : 0 ≤ i) (h3 : i + 3 < (n : ℤ)) :
    ∃ buf', setAt buf i b g r = some buf' ∧ ByteBuf n buf' := by
  obtain ⟨buf1, hs1, hb1⟩ := pySet_pres n buf i (b : ℤ) hbuf h0 (by omega)
    (by positivity) (by exact_mod_cast by omega)
  obtain ⟨buf2, hs2, hb2⟩ := pySet_pres n buf1 (i + 1) (g : ℤ) hb1 (by omega) (by omega)
    (by positivity) (by exact_mod_cast by omega)
  obtain ⟨buf3, hs3, hb3⟩ := pySet_pres n buf2 (i + 2) (r : ℤ) hb2 (by omega) (by omega)
    (by positivity) (by exact_mod_cast by omega)
  obtain ⟨buf4, hs4, hb4⟩ := pySet_pres n buf3 (i + 3) 255 hb3 (by omega) (by omega)
    (by norm_num) (by norm_num)
  refine ⟨buf4, ?_, hb4⟩
  unfold setAt
  simp [hs1, hs2, hs3, hs4]

/-- `foldOpt` succeeds and preserves an invariant provided every step
does. -/
theorem foldOpt_pres {α : Type} (P : List ℕ → Prop)
    (f : List ℕ → α → Option (List ℕ))
    (hf : ∀ buf x, P buf → ∃ buf', f buf x = some buf' ∧ P buf') :
    ∀ (l : List α) (buf : List ℕ), P buf →
      ∃ buf', foldOpt f l buf = some buf' ∧ P buf' := by
  intro l
  induction l with
  | nil => exact fun buf h => ⟨buf, rfl, h⟩
  | cons x xs ih =>
    intro buf h
    obtain ⟨buf1, hstep, h1⟩ := hf buf x h
    obtain ⟨buf', hrest, h'⟩ := ih buf1 h1
    exact ⟨buf', by rw [foldOpt, hstep]; exact hrest, h'⟩

/-- A pixel inside the buffer's width and height addresses four bytes
strictly inside the buffer. -/
theorem pixIndex_bounds (w h : ℕ) (xx yy : ℤ) (hx0 : 0 ≤ xx) (hxw : xx < (w : ℤ))
    (hy0 : 0 ≤ yy) (hyh : yy < (h : ℤ)) :
    0 ≤ (yy * w + xx) * 4 ∧ (yy * w + xx) * 4 + 3 < ((w * h * 4 : ℕ) : ℤ) := by
  have h1 : yy * (w : ℤ) ≤ ((h : ℤ) - 1) * w :=
    mul_le_mul_of_nonneg_right (by omega) (by omega)
  have h0 : 0 ≤ yy * (w : ℤ) := mul_nonneg hy0 (by omega)
  push_cast
  constructor
  · nlinarith
  · nlinarith

/-- The filled-circle primitive succeeds on any well-formed buffer, for
arbitrary center and radius, and preserves the buffer invariant. -/
theorem draw_circle_pres (w h : ℕ) (px py radius : ℤ) (b g r a : ℕ)
    (hb : b ≤ 255) (hg : g ≤ 255) (hr : r ≤ 255) (ha : a ≤ 255)
    (buf : List ℕ) (hbuf : ByteBuf (w * h * 4) buf) :
    ∃ buf', draw_circle_bgra buf w h px py radius b g r a = some buf'
      ∧ ByteBuf (w * h * 4) buf' := by
  unfold draw_circle_bgra
  refine foldOpt_pres _ _ ?_ _ buf hbuf
  intro buf oy hP
  by_cases hy : py + oy < 0 ∨ (h : ℤ) ≤ py + oy
  · rw [if_pos hy]
    exact ⟨buf, rfl, hP⟩
  · rw [if_neg hy]
    refine foldOpt_pres _ _ ?_ _ buf hP
    intro buf ox hP'
    by_cases hr2 : ox * ox + oy * oy > radius * radius
    · rw [if_pos hr2]
      exact ⟨buf, rfl, hP'⟩
    · rw [if_neg hr2]
      by_cases hxb : 0 ≤ px + ox ∧ px + ox < (w : ℤ)
      · rw [if_pos hxb]
        have hidx := pixIndex_bounds w h (px + ox) (py + oy) hxb.1 hxb.2
          (by omega) (by omega)
        by_cases hop : 255 ≤ a
        · rw [if_pos hop]
          exact setAt_pres _ buf _ b g r hP' hb hg hr hidx.1 hidx.2
        · rw [if_neg hop]
          exact blendAt_pres _ buf _ b g r a hP' hb hg hr ha hidx.1 hidx.2
      · rw [if_neg hxb]
        exact ⟨buf, rfl, hP'⟩

/-- One thickness-square stamp of the line primitive succeeds on any
well-formed buffer and preserves the buffer invariant. -/
theorem lineStamp_pres (w h : ℕ) (x y half : ℤ) (b g r a : ℕ)
    (hb : b ≤ 255) (hg : g ≤ 255) (hr : r ≤ 255) (ha : a ≤ 255)
    (buf : List ℕ) (hbuf : ByteBuf (w * h * 4) buf) :
    ∃ buf', lineStamp buf w h x y half b g r a = some buf'
      ∧ ByteBuf (w * h * 4) buf' := by
  unfold lineStamp
  refine foldOpt_pres _ _ ?_ _ buf hbuf
  intro buf oy hP
  by_cases hy : y + oy < 0 ∨ (h : ℤ) ≤ y + oy
  · rw [if_pos hy]
    exact ⟨buf, rfl, hP⟩
  · rw [if_neg hy]
    refine foldOpt_pres _ _ ?_ _ buf hP
    intro buf ox hP'
    by_cases hxb : 0 ≤ x + ox ∧ x + ox < (w : ℤ)
    · rw [if_pos hxb]
      have hidx := pixIndex_bounds w h (x + ox) (y + oy) hxb.1 hxb.2
        (by omega) (by omega)
      exact blendAt_pres _ buf _ b g r a hP' hb hg hr ha hidx.1 hidx.2
    · rw [if_neg hxb]
      exact ⟨buf, rfl, hP'⟩

/-- A Bresenham step position reaches its target exactly when the step
count has reached the axis distance. -/
theorem bres_reach (x1 x2 sx : ℤ) (dxN : ℕ) (hdx : dxN = (x2 - x1).natAbs)
    (hsx : sx = if x1 < x2 then 1 else -1) (ix : ℕ) (hix : ix ≤ dxN) :
    x1 + ix * sx = x2 ↔ ix = dxN := by
  subst hdx hsx
  by_cases h : x1 < x2 <;> simp [h, mul_one, mul_neg_one] <;> omega

/-- When all horizontal steps are exhausted but vertical ones remain, the
Bresenham error term refuses a horizontal step. -/
theorem bres_no_x (dxN dyN ix iy : ℕ) (hix : ix = dxN) (hiy : iy < dyN) :
    ¬ (2 * ((dxN : ℤ) - dyN - ix * dyN + iy * dxN) > -(dyN : ℤ)) := by
  intro hcon
  rw [hix] at hcon
  have h1 : (iy : ℤ) + 1 ≤ (dyN : ℤ) := by exact_mod_cast hiy
  nlinarith [mul_le_mul_of_nonneg_left h1 (show (0 : ℤ) ≤ 2 * (dxN : ℤ) by positivity)]

/-- When all vertical steps are exhausted but horizontal ones remain, the
Bresenham error term refuses a vertical step. -/
theorem bres_no_y (dxN dyN ix iy : ℕ) (hiy : iy = dyN) (hix : ix < dxN) :
    ¬ (2 * ((dxN : ℤ) - dyN - ix * dyN + iy * dxN) < (dxN : ℤ)) := by
  intro hcon
  rw [hiy] at hcon
  have h1 : (ix : ℤ) + 1 ≤ (dxN : ℤ) := by exact_mod_cast hix
  nlinarith [mul_le_mul_of_nonneg_left h1 (show (0 : ℤ) ≤ 2 * (dyN : ℤ) by positivity)]

/-- The Bresenham loop never stalls: if neither step fires, both axis
distances are zero, i.e. the loop already sits on its target. -/
theorem bres_move (dxN dyN : ℕ) (E : ℤ)
    (hno_x : ¬ (2 * E > -(dyN : ℤ))) (hno_y : ¬ (2 * E < (dxN : ℤ))) :
    dxN = 0 ∧ dyN = 0 := by
  have h1 : 2 * E ≤ -(dyN : ℤ) := by omega
  have h2 : (dxN : ℤ) ≤ 2 * E := by omega
  have : (dxN : ℤ) ≤ -(dyN : ℤ) := le_trans h2 h1
  omega

/-- The Bresenham stepping loop, given one unit of fuel per remaining
step plus one, terminates with a well-formed buffer: the invariant is
that after `ix` horizontal and `iy` vertical steps the position and the
error term have the closed forms below, the counters never exceed the
axis distances, and every iteration strictly decreases the remaining
step count. -/
theorem lineLoop_runs (w h : ℕ) (x2 y2 half : ℤ) (b g r a : ℕ)
    (hb : b ≤ 255) (hg : g ≤ 255) (hr : r ≤ 255) (ha : a ≤ 255)
    (x1 y1 sx sy : ℤ) (dxN dyN : ℕ)
    (hdx : dxN = (x2 - x1).natAbs) (hdy : dyN = (y2 - y1).natAbs)
    (hsx : sx = if x1 < x2 then 1 else -1)
    (hsy : sy = if y1 < y2 then 1 else -1) :
    ∀ (fuel ix iy : ℕ) (buf : List ℕ), ByteBuf (w * h * 4) buf →
      ix ≤ dxN → iy ≤ dyN → (dxN - ix) + (dyN - iy) < fuel →
      ∃ buf',
        lineLoop w h x2 y2 sx sy (dxN : ℤ) (dyN : ℤ) half b g r a fuel
          (x1 + ix * sx) (y1 + iy * sy)
          ((dxN : ℤ) - (dyN : ℤ) - ix * (dyN : ℤ) + iy * (dxN : ℤ)) buf
          = some buf'
        ∧ ByteBuf (w * h * 4) buf' := by
  intro fuel
  induction fuel with
  | zero =>
    intro ix iy buf _ _ _ hf
    omega
  | succ f ih =>
    intro ix iy buf hbuf hix hiy hfuel
    obtain ⟨buf1, hstamp, hb1⟩ := lineStamp_pres w h (x1 + ix * sx) (y1 + iy * sy)
      half b g r a hb hg hr ha buf hbuf
    rw [lineLoop, hstamp]
    dsimp only
    by_cases hbrk : x1 + ix * sx = x2 ∧ y1 + iy * sy = y2
    · rw [if_pos hbrk]
      exact ⟨buf1, rfl, hb1⟩
    · rw [if_neg hbrk]
      by_cases hCx : 2 * ((dxN : ℤ) - (dyN : ℤ) - ix * (dyN : ℤ) + iy * (dxN : ℤ))
          > -(dyN : ℤ)
      · have hixlt : ix < dxN := by
          rcases Nat.lt_or_ge ix dxN with h | h
          · exact h
          · have hixeq : ix = dxN := by omega
            by_cases hiyeq : iy = dyN
            · exact absurd ⟨(bres_reach x1 x2 sx dxN hdx hsx ix hix).mpr hixeq,
                (bres_reach y1 y2 sy dyN hdy hsy iy hiy).mpr hiyeq⟩ hbrk
            · exact absurd hCx (bres_no_x dxN dyN ix iy hixeq (by omega))
        rw [if_pos hCx]
        by_cases hCy : 2 * ((dxN : ℤ) - (dyN : ℤ) - ix * (dyN : ℤ) + iy * (dxN : ℤ))
            < (dxN : ℤ)
        · have hiylt : iy < dyN := by
            rcases Nat.lt_or_ge iy dyN with h | h
            · exact h
            · exact absurd hCy (bres_no_y dxN dyN ix iy (by omega) hixlt)
          rw [if_pos hCy]
          dsimp only
          have e1 : x1 + ix * sx + sx = x1 + ((ix + 1 : ℕ) : ℤ) * sx := by
            push_cast
            ring
          have e2 : y1 + iy * sy + sy = y1 + ((iy + 1 : ℕ) : ℤ) * sy := by
            push_cast
            ring
          have e3 : (dxN : ℤ) - (dyN : ℤ) - ix * (dyN : ℤ) + iy * (dxN : ℤ)
              - (dyN : ℤ) + (dxN : ℤ)
              = (dxN : ℤ) - (dyN : ℤ) - ((ix + 1 : ℕ) : ℤ) * (dyN : ℤ)
                + ((iy + 1 : ℕ) : ℤ) * (dxN : ℤ) := by
            push_cast
            ring
          rw [e1, e2, e3]
          exact ih (ix + 1) (iy + 1) buf1 hb1 (by omega) (by omega) (by omega)
        · rw [if_neg hCy]
          dsimp only
          have e1 : x1 + ix * sx + sx = x1 + ((ix + 1 : ℕ) : ℤ) * sx := by
            push_cast
            ring
          have e3 : (dxN : ℤ) - (dyN : ℤ) - ix * (dyN : ℤ) + iy * (dxN : ℤ) - (dyN : ℤ)
              = (dxN : ℤ) - (dyN : ℤ) - ((ix + 1 : ℕ) : ℤ) * (dyN : ℤ)
                + iy * (dxN : ℤ) := by
            push_cast
            ring
          rw [e1, e3]
          exact ih (ix + 1) iy buf1 hb1 (by omega) hiy (by omega)
      · rw [if_neg hCx]
        by_cases hCy : 2 * ((dxN : ℤ) - (dyN : ℤ) - ix * (dyN : ℤ) + iy * (dxN : ℤ))
            < (dxN : ℤ)
        · have hiylt : iy < dyN := by
            rcases Nat.lt_or_ge iy dyN with h | h
            · exact h
            · have hiyeq : iy = dyN := by omega
              by_cases hixeq : ix = dxN
              · exact absurd ⟨(bres_reach x1 x2 sx dxN hdx hsx ix hix).mpr hixeq,
                  (bres_reach y1 y2 sy dyN hdy hsy iy hiy).mpr hiyeq⟩ hbrk
              · exact absurd hCy (bres_no_y dxN dyN ix iy hiyeq (by omega))
          rw [if_pos hCy]
          dsimp only
          have e2 : y1 + iy * sy + sy = y1 + ((iy + 1 : ℕ) : ℤ) * sy := by
            push_cast
            ring
          have e3 : (dxN : ℤ) - (dyN : ℤ) - ix * (dyN : ℤ) + iy * (dxN : ℤ) + (dxN : ℤ)
              = (dxN : ℤ) - (dyN : ℤ) - ix * (dyN : ℤ)
                + ((iy + 1 : ℕ) : ℤ) * (dxN : ℤ) := by
            push_cast
            ring
          rw [e2, e3]
          exact ih ix (iy + 1) buf1 hb1 hix (by omega) (by omega)
        · exfalso
          obtain ⟨hdx0, hdy0⟩ := bres_move dxN dyN _ hCx hCy
          exact hbrk ⟨(bres_reach x1 x2 sx dxN hdx hsx ix hix).mpr (by omega),
            (bres_reach y1 y2 sy dyN hdy hsy iy hiy).mpr (by omega)⟩

/-- The thick-line primitive succeeds on any well-formed buffer, for
arbitrary endpoints and thickness, and preserves the buffer invariant:
the fuel supplied by `draw_line_bgra` is sufficient. -/
theorem draw_line_pres (w h : ℕ) (x1 y1 x2 y2 : ℤ) (b g r a : ℕ)
    (thickness : ℤ) (hb : b ≤ 255) (hg : g ≤ 255) (hr : r ≤ 255) (ha : a ≤ 255)
    (buf : List ℕ) (hbuf : ByteBuf (w * h * 4) buf) :
    ∃ buf', draw_line_bgra buf w h x1 y1 x2 y2 b g r a thickness = some buf'
      ∧ ByteBuf (w * h * 4) buf' := by
  have h0 := lineLoop_runs w h x2 y2 (Int.fdiv thickness 2) b g r a hb hg hr ha
    x1 y1 (if x1 < x2 then 1 else -1) (if y1 < y2 then 1 else -1)
    (x2 - x1).natAbs (y2 - y1).natAbs rfl rfl rfl rfl
    ((x2 - x1).natAbs + (y2 - y1).natAbs + 1) 0 0 buf hbuf
    (by omega) (by omega) (by omega)
  simp only [Nat.cast_zero, zero_mul, add_zero, sub_zero, mul_zero] at h0
  unfold draw_line_bgra
  dsimp only
  rw [show |x2 - x1|.toNat = (x2 - x1).natAbs from by rw [Int.abs_eq_natAbs]; omega,
    show |y2 - y1|.toNat = (y2 - y1).natAbs from by rw [Int.abs_eq_natAbs]; omega]
  simpa using h0

/-- Normalizing the maximal coordinate 1000 yields the full extent — a
pixel coordinate at the buffer edge, one past the last valid column. -/
theorem norm_1000 (extent : ℕ) : norm 1000 extent = extent := by
  unfold norm
  have h : ((max 0 (min 1000 (1000 : ℤ)) : ℤ) : ℚ) / 1000 * (extent : ℚ)
      = ((extent : ℤ) : ℚ) := by
    norm_num
  rw [h, pyTrunc_intCast]

/-- C10: for every buffer of exactly `w*h*4` bytes and arbitrary integer
center, radius, line endpoints and thickness — including coordinates at
or beyond the buffer edge, such as the value `extent` that normalizing
coordinate 1000 produces — the filled-circle and thick-line primitives
terminate and return a buffer (never raise: `Option.none` models every
Python exception, including out-of-range indexing and non-byte writes),
never change the buffer's length, and keep every byte in range, hence
modify only bytes at indices within `[0, w*h*4)`. -/
theorem draw_primitives_safe (w h : ℕ) (buf : List ℕ)
    (hlen : buf.length = w * h * 4) (hbytes : ∀ v ∈ buf, v < 256)
    (px py radius x1 y1 x2 y2 thickness : ℤ) (b g r a : ℕ)
    (hb : b ≤ 255) (hg : g ≤ 255) (hr : r ≤ 255) (ha : a ≤ 255) :
    (∃ buf', draw_circle_bgra buf w h px py radius b g r a = some buf'
      ∧ buf'.length = w * h * 4 ∧ ∀ v ∈ buf', v < 256)
    ∧ (∃ buf', draw_line_bgra buf w h x1 y1 x2 y2 b g r a thickness = some buf'
      ∧ buf'.length = w * h * 4 ∧ ∀ v ∈ buf', v < 256)
    ∧ (∀ extent : ℕ, norm 1000 extent = extent) := by
  refine ⟨?_, ?_, norm_1000⟩
  · obtain ⟨buf', h1, hB⟩ :=
      draw_circle_pres w h px py radius b g r a hb hg hr ha buf ⟨hlen, hbytes⟩
    exact ⟨buf', h1, hB.1, hB.2⟩
  · obtain ⟨buf', h1, hB⟩ :=
      draw_line_pres w h x1 y1 x2 y2 b g r a thickness hb hg hr ha buf ⟨hlen, hbytes⟩
    exact ⟨buf', h1, hB.1, hB.2⟩

/-- Witness for `draw_primitives_safe`: a 2 by 2 canvas, a circle around
the origin, a diagonal line, and the edge value of `norm`. -/
theorem draw_primitives_safe_witness :
    (∃ buf', draw_circle_bgra (List.replicate 16 0) 2 2 0 0 1 255 255 255 255 = some buf'
      ∧ buf'.length = 16 ∧ ∀ v ∈ buf', v < 256)
    ∧ (∃ buf', draw_line_bgra (List.replicate 16 0) 2 2 0 0 2 2 0 220 255 220 4 = some buf'
      ∧ buf'.length = 16 ∧ ∀ v ∈ buf', v < 256)
    ∧ norm 1000 7 = 7 := by
  have h := draw_primitives_safe 2 2 (List.replicate 16 0) (by decide) (by decide)
    0 0 1 0 0 2 2 4 255 255 255 255 (by decide) (by decide) (by decide) (by decide)
  have h2 := draw_primitives_safe 2 2 (List.replicate 16 0) (by decide) (by decide)
    0 0 1 0 0 2 2 4 0 220 255 220 (by decide) (by decide) (by decide) (by decide)
  exact ⟨h.1, h2.2.1, h.2.2 7⟩

/-- Witness for `update_cursor_state_spec`: with a click followed by a
drag, `last_*` lands on the drag endpoint and `prev_*` on the prior
`last_*`. -/
theorem update_cursor_state_spec_witness :
    (update_cursor_state ["click(3, 4)", "drag(0, 0, 9, 8)"]
        ⟨some 1, some 2, Option.none, Option.none⟩).last_x = some 9
    ∧ (update_cursor_state ["click(3, 4)", "drag(0, 0, 9, 8)"]
        ⟨some 1, some 2, Option.none, Option.none⟩).prev_x = some 1 :=
  ⟨((update_cursor_state_spec ["click(3, 4)", "drag(0, 0, 9, 8)"]
      ⟨some 1, some 2, Option.none, Option.none⟩).2.2.2 (9, 8) (by decide)).1,
   (update_cursor_state_spec ["click(3, 4)", "drag(0, 0, 9, 8)"]
      ⟨some 1, some 2, Option.none, Option.none⟩).1⟩

end Franz
